import Mathlib

/-!
# enellerett.se: the lexicon table, lookup and the quiz check

A shallow embedding of `src/main.go`.

* Go strings are modelled by `String` (sequences of Unicode code points, that
  is, Go strings holding valid UTF-8). `ToLowerBytes` and `cleanBytes` give
  `strings.ToLower` and the key of `lookup` on arbitrary bytes; on valid UTF-8
  they agree with `ToLower` and `clean` (`ToLowerBytes_utf8`, `cleanBytes_utf8`).
* The Go map `map[string]Info` is modelled by an association list with
  assignment in place; only `mapGet` observes it, so the order of the entries
  carries no meaning.
* `uint64` is a natural number taken modulo `2 ^ 64`.
* A Go `panic` is the `panic` constructor of `Outcome`.
* The operations run one after another. Where the mutex matters, `World`
  carries its state and the list of the accesses made to the map.
* `fmt.Fprintf` with a format and no operands is modelled after `doPrintf` of
  Go's package `fmt`.
* `unicode.ToLower` on runes above ASCII reads the case table of Go's
  standard library, which the operations take as the argument `lowerTable`.
-/

namespace Enellerett

/-- The struct `Info` of `main.go`. -/
structure Info where
  ett : Bool
  en : Bool
  msg : String
  hits : Nat
  deriving DecidableEq, Repr

/-- The zero value of `Info`, which a Go map read yields for an absent key. -/
def Info.zero : Info := { ett := false, en := false, msg := "", hits := 0 }

/-- The struct `Table` of `main.go` without its mutex. -/
structure Table where
  data : List (String × Info)
  deriving DecidableEq, Repr

/-- The result of a call that may panic. -/
inductive Outcome (α : Type) where
  | ok (a : α)
  | panic (msg : String)
  deriving DecidableEq, Repr

/-- The width of `uint64`. -/
def uint64Size : Nat := 2 ^ 64

/-- The Go map read `m[k]` with its presence flag, as an option. -/
def mapGet : List (String × Info) → String → Option Info
  | [], _ => none
  | (k', v) :: m, k => if k' = k then some v else mapGet m k

/-- The Go map assignment `m[k] = v`. -/
def mapSet : List (String × Info) → String → Info → List (String × Info)
  | [], k, v => [(k, v)]
  | (k', v') :: m, k, v => if k' = k then (k, v) :: m else (k', v') :: mapSet m k v

/-- The loop `for ens.Scan()` of `NewTable` over the lines of the en file. -/
def loadEn (t : List (String × Info)) : List String → List (String × Info)
  | [] => t
  | word :: rest =>
    loadEn (mapSet t word
      { ett := false, en := true, msg := "En " ++ word ++ "\n", hits := 0 }) rest

/-- The loop `for etts.Scan()` of `NewTable` over the lines of the ett file. -/
def loadEtt (t : List (String × Info)) : List String → List (String × Info)
  | [] => t
  | word :: rest =>
    match mapGet t word with
    | some _ =>
      loadEtt (mapSet t word
        { ett := true, en := true,
          msg := "En eller ett " ++ word ++ " beroende på kontext\n", hits := 0 }) rest
    | none =>
      loadEtt (mapSet t word
        { ett := true, en := false, msg := "Ett " ++ word ++ "\n", hits := 0 }) rest

/-- The function `NewTable` on the lines the two scanners deliver. -/
def NewTable (en ett : List String) : Table :=
  { data := loadEtt (loadEn [] en) ett }

/-- The method `Table.Read`. -/
def Table.Read (t : Table) (key : String) : Info × Bool :=
  match mapGet t.data key with
  | some value => (value, true)
  | none => (Info.zero, false)

/-- The method `Table.IncrementHits`: the outcome and the table it leaves. -/
def Table.IncrementHits (t : Table) (key : String) : Outcome Unit × Table :=
  match mapGet t.data key with
  | none => (Outcome.panic "tried to increment an non existant key", t)
  | some value =>
    (Outcome.ok (),
      { data := mapSet t.data key { value with hits := (value.hits + 1) % uint64Size } })

/-- The call `strings.ReplaceAll(s, old, new)` for a pattern of one character. -/
def ReplaceAll (s : String) (old : Char) (new : String) : String :=
  String.mk (s.data.flatMap fun c => if c = old then new.data else [c])

/-- The function `unicode.ToLower` on one rune: arithmetic on ASCII, the case
table above it. -/
def unicodeToLower (lowerTable : Char → Char) (c : Char) : Char :=
  if c.toNat ≤ 0x7F then
    if 'A'.toNat ≤ c.toNat ∧ c.toNat ≤ 'Z'.toNat then Char.ofNat (c.toNat + 32) else c
  else lowerTable c

/-- The call `strings.ToLower(s)` on a string that is valid UTF-8: every rune is
lowered. (For a byte that is no valid UTF-8 Go writes U+FFFD; `String` holds no
such byte, `ToLowerBytes` below does.) -/
def ToLower (lowerTable : Char → Char) (s : String) : String :=
  String.mk (s.data.map (unicodeToLower lowerTable))

/-- The key `clean` that `lookup` computes from the raw query. -/
def clean (lowerTable : Char → Char) (word : String) : String :=
  ToLower lowerTable (ReplaceAll word ' ' "")

/-- The function `lookup`: the message returned and the key of the detached
`IncrementHits` call, when one is started. -/
def lookup (lowerTable : Char → Char) (t : Table) (word : String) : String × Option String :=
  let clean := clean lowerTable word
  if clean.length = 0 then ("", none)
  else
    match t.Read clean with
    | (_, false) => ("Kunde inte hitta substantivet '" ++ word ++ "'\n", none)
    | (info, true) => (info.msg, some clean)

/-- A call of `lookup` with its detached increment run to completion: the
message, the outcome of the increment and the table left. -/
def lookupSettled (lowerTable : Char → Char) (t : Table) (word : String) :
    String × Outcome Unit × Table :=
  match lookup lowerTable t word with
  | (msg, none) => (msg, Outcome.ok (), t)
  | (msg, some key) => (msg, t.IncrementHits key)

/-- The table after `n` settled lookups of `word` in a row. -/
def lookupTimes (lowerTable : Char → Char) (t : Table) (word : String) : Nat → Table
  | 0 => t
  | n + 1 => (lookupSettled lowerTable (lookupTimes lowerTable t word n) word).2.2

/-- The function `isCorrect`. -/
def isCorrect (t : Table) (en : Bool) (noun : String) : Outcome Bool :=
  match t.Read noun with
  | (_, false) => Outcome.panic "somehow noun from game did not exist in table"
  | (info, true) => Outcome.ok (info.en == en)

/-- The function `gameCheck`. -/
def gameCheck (t : Table) (en : Bool) (noun : String) : Outcome String :=
  let guess := if !en then "ett" else "en"
  match isCorrect t en noun with
  | Outcome.panic msg => Outcome.panic msg
  | Outcome.ok true => Outcome.ok ("&#9989; " ++ guess ++ " " ++ noun ++ "<br>")
  | Outcome.ok false => Outcome.ok ("&#10060; " ++ guess ++ " " ++ noun ++ "<br>")

/-- The lower-case letters of the Swedish capitals above ASCII, a part of the
case table of Go's standard library. -/
def swedishLower (c : Char) : Char :=
  if c = 'Å' then 'å' else if c = 'Ä' then 'ä' else if c = 'Ö' then 'ö' else c

/-- The function `strings.HasPrefix`. -/
def HasPrefix (s pre : String) : Bool :=
  pre.data.isPrefixOf s.data

/-- The function `strings.Contains`: `sub` is a run of consecutive characters of `s`. -/
def Contains (s sub : String) : Prop :=
  sub.data <:+: s.data

instance decidableContains (s sub : String) : Decidable (Contains s sub) :=
  inferInstanceAs (Decidable (sub.data <:+: s.data))

/-- The entry `NewTable` writes for a line of the en file. -/
def enInfo (word : String) : Info :=
  { ett := false, en := true, msg := "En " ++ word ++ "\n", hits := 0 }

/-- The entry `NewTable` writes for a line of the ett file that is not yet a key. -/
def ettInfo (word : String) : Info :=
  { ett := true, en := false, msg := "Ett " ++ word ++ "\n", hits := 0 }

/-- The entry `NewTable` writes for a line of the ett file that is already a key. -/
def bothInfo (word : String) : Info :=
  { ett := true, en := true,
    msg := "En eller ett " ++ word ++ " beroende på kontext\n", hits := 0 }

/-! ## The quiz draw, the handler and the text written -/

/-- The keys of a Go map, each once. -/
def mapKeys (m : List (String × Info)) : List String :=
  (m.map Prod.fst).dedup

/-- The call `rand.Intn(n)` on the value `r` of the random source: a number
below `n`, and a panic for `n` not above zero. -/
def Intn (n r : Nat) : Outcome Nat :=
  if n = 0 then Outcome.panic "invalid argument to Intn" else Outcome.ok (r % n)

/-- The expression `words[rand.Intn(len(words))]` of `gameRandom`. -/
def drawWord (words : List String) (r : Nat) : Outcome String :=
  match Intn words.length r with
  | Outcome.panic msg => Outcome.panic msg
  | Outcome.ok i =>
    match words.get? i with
    | some word => Outcome.ok word
    | none => Outcome.panic "index out of range"

/-- The flag characters of a verb in a format of package `fmt`. -/
def isFlag (c : Char) : Bool :=
  c = '#' || c = '0' || c = '+' || c = '-' || c = ' '

/-- The loop of `parsenum` of package `fmt`: the number read so far, whether a
digit was read, and the text left; a number above `1e6` gives up and moves to
the end of the text. -/
def parsenumFrom (num : Nat) (isnum : Bool) : List Char → Nat × Bool × List Char
  | [] => (num, isnum, [])
  | c :: s =>
    if '0'.toNat ≤ c.toNat ∧ c.toNat ≤ '9'.toNat then
      if num > 1000000 then (0, false, [])
      else parsenumFrom (num * 10 + (c.toNat - '0'.toNat)) true s
    else (num, isnum, c :: s)

/-- The function `parsenum` of package `fmt`. -/
def parsenum (s : List Char) : Nat × Bool × List Char :=
  parsenumFrom 0 false s

/-- The function `parseArgNumber` of package `fmt` on a text that starts with
`[`: the characters taken and whether a number in brackets was read. -/
def parseArgNumber (s : List Char) : Nat × Bool :=
  if (String.mk s).utf8ByteSize < 3 then (1, false)
  else
    let i := s.tail.indexOf ']'
    if i < s.tail.length then
      let r := parsenum (s.tail.take i)
      (i + 2, r.2.1 && r.2.2.isEmpty)
    else (1, false)

/-- The method `argNumber` of package `fmt` for a call with no operands: the
text left, `found`, and whether an index was met (none is in range). -/
def argNumber (s : List Char) : List Char × Bool × Bool :=
  if s.head? = some '[' then (s.drop (parseArgNumber s).1, (parseArgNumber s).2, true)
  else (s, false, false)

/-- One verb of `doPrintf` of package `fmt` for a call with no operands, on the
text after the `%`: the text written and the format left. A `.` starts a
precision only when the format goes on after it (`i+1 < end`); a `.` that ends
the format is the verb. -/
def doVerb (s0 : List Char) : List Char × List Char :=
  let s1 := s0.dropWhile isFlag
  let a1 := argNumber s1
  let wid : List Char × List Char × Bool × Bool :=
    if a1.1.head? = some '*' then ("%!(BADWIDTH)".data, a1.1.tail, false, a1.2.2)
    else
      let n := parsenum a1.1
      ([], n.2.2, a1.2.1, a1.2.2 || (a1.2.1 && n.2.1))
  let prec : List Char × List Char × Bool × Bool :=
    if wid.2.1.head? = some '.' ∧ wid.2.1.tail.isEmpty = false then
      let a2 := argNumber wid.2.1.tail
      let bad := wid.2.2.2 || wid.2.2.1 || a2.2.2
      if a2.1.head? = some '*' then ("%!(BADPREC)".data, a2.1.tail, false, bad)
      else ([], (parsenum a2.1).2.2, a2.2.1, bad)
    else ([], wid.2.1, wid.2.2.1, wid.2.2.2)
  let a3 : List Char × Bool :=
    if prec.2.2.1 then (prec.2.1, prec.2.2.2)
    else ((argNumber prec.2.1).1, prec.2.2.2 || (argNumber prec.2.1).2.2)
  match a3.1 with
  | [] => (wid.1 ++ prec.1 ++ "%!(NOVERB)".data, [])
  | verb :: s =>
    if verb = '%' then (wid.1 ++ prec.1 ++ ['%'], s)
    else if a3.2 then (wid.1 ++ prec.1 ++ "%!".data ++ [verb] ++ "(BADINDEX)".data, s)
    else (wid.1 ++ prec.1 ++ "%!".data ++ [verb] ++ "(MISSING)".data, s)

/-- The loop of `doPrintf` of package `fmt` for a call with no operands; `skip`
counts the characters of the format that the last verb took. -/
def doPrintf : Nat → List Char → List Char
  | _, [] => []
  | skip + 1, _ :: s => doPrintf skip s
  | 0, c :: s =>
    if c = '%' then (doVerb s).1 ++ doPrintf (s.length - (doVerb s).2.length) s
    else c :: doPrintf 0 s

/-- The text that `fmt.Fprintf(w, format)` writes when called with a format
and no operands. -/
def Fprintf (format : String) : String :=
  String.mk (doPrintf 0 format.data)

/-- The function `gameRandom` on the sequence `words` that
`slices.Collect(maps.Keys(table.data))` delivers and the value `r` of the
random source: the body written. -/
def gameRandom (words : List String) (r : Nat) : Outcome String :=
  match drawWord words r with
  | Outcome.panic msg => Outcome.panic msg
  | Outcome.ok word => Outcome.ok (Fprintf word)

/-- The function `unicode.IsSpace`. -/
def isSpace (c : Char) : Bool :=
  c = '\t' || c = '\n' || c.toNat = 0x0B || c.toNat = 0x0C || c = '\r' || c = ' ' ||
  c.toNat = 0x85 || c.toNat = 0xA0 || c.toNat = 0x1680 ||
  (0x2000 ≤ c.toNat && c.toNat ≤ 0x200A) || c.toNat = 0x2028 || c.toNat = 0x2029 ||
  c.toNat = 0x202F || c.toNat = 0x205F || c.toNat = 0x3000

/-- The function `strings.TrimSpace`. -/
def TrimSpace (s : String) : String :=
  String.mk ((s.data.dropWhile isSpace).reverse.dropWhile isSpace).reverse

/-- The function `strings.TrimPrefix`. -/
def TrimPrefix (s pre : String) : String :=
  if HasPrefix s pre then String.mk (s.data.drop pre.data.length) else s

/-- The function `handleCurl` on the host and the path of the request: the
body written and the key of the detached `IncrementHits` call, when one is
started. -/
def handleCurl (lowerTable : Char → Char) (t : Table) (host path : String) :
    String × Option String :=
  if path.utf8ByteSize = 1 then
    ("No input given. Try something like this:\n\t" ++ host ++ "/stol\n", none)
  else
    let s := TrimPrefix path "/"
    let s := ToLower lowerTable s
    let s := TrimSpace s
    let res := lookup lowerTable t s
    (Fprintf res.1, res.2)

/-! ## The mutex and the accesses to the map -/

/-- One access to `table.data`, with whether `table.mutex` was held then. -/
inductive Access where
  | read (key : String) (held : Bool)
  | write (key : String) (held : Bool)
  | range (held : Bool)
  deriving DecidableEq, Repr

/-- Whether the mutex was held at an access. -/
def Access.held : Access → Bool
  | Access.read _ h => h
  | Access.write _ h => h
  | Access.range h => h

/-- The global `table` with the state of its mutex and the accesses made to
its map so far. -/
structure World where
  data : List (String × Info)
  held : Bool
  accesses : List Access
  deriving DecidableEq, Repr

/-- The world a table starts serving in: the mutex free, no access made. -/
def World.start (t : Table) : World :=
  { data := t.data, held := false, accesses := [] }

/-- The call `t.mutex.Lock()`. -/
def World.Lock (w : World) : World :=
  { w with held := true }

/-- The call `t.mutex.Unlock()`. -/
def World.Unlock (w : World) : World :=
  { w with held := false }

/-- The map read `t.data[key]`. -/
def World.mapRead (w : World) (key : String) : Option Info × World :=
  (mapGet w.data key, { w with accesses := w.accesses ++ [Access.read key w.held] })

/-- The map assignment `t.data[key] = value`. -/
def World.mapWrite (w : World) (key : String) (value : Info) : World :=
  { w with data := mapSet w.data key value,
           accesses := w.accesses ++ [Access.write key w.held] }

/-- The ranging `maps.Keys(table.data)`. -/
def World.mapRange (w : World) : World :=
  { w with accesses := w.accesses ++ [Access.range w.held] }

/-- The method `Table.Read` with its locking. -/
def World.Read (w : World) (key : String) : (Info × Bool) × World :=
  let w1 := w.Lock
  let r := w1.mapRead key
  let w2 := r.2.Unlock
  match r.1 with
  | some value => ((value, true), w2)
  | none => ((Info.zero, false), w2)

/-- The method `Table.IncrementHits` with its locking; the deferred unlock runs
on the panic too. -/
def World.IncrementHits (w : World) (key : String) : Outcome Unit × World :=
  let w1 := w.Lock
  let r := w1.mapRead key
  match r.1 with
  | none => (Outcome.panic "tried to increment an non existant key", r.2.Unlock)
  | some value =>
    (Outcome.ok (),
      (r.2.mapWrite key { value with hits := (value.hits + 1) % uint64Size }).Unlock)

/-- The function `lookup` with the accesses it makes. -/
def World.lookup (lowerTable : Char → Char) (w : World) (word : String) :
    (String × Option String) × World :=
  let clean := clean lowerTable word
  if clean.length = 0 then (("", none), w)
  else
    match w.Read clean with
    | ((_, false), w1) => (("Kunde inte hitta substantivet '" ++ word ++ "'\n", none), w1)
    | ((info, true), w1) => ((info.msg, some clean), w1)

/-- The function `isCorrect` with the accesses it makes. -/
def World.isCorrect (w : World) (en : Bool) (noun : String) : Outcome Bool × World :=
  match w.Read noun with
  | ((_, false), w1) => (Outcome.panic "somehow noun from game did not exist in table", w1)
  | ((info, true), w1) => (Outcome.ok (info.en == en), w1)

/-- The function `gameCheck` with the accesses it makes. -/
def World.gameCheck (w : World) (en : Bool) (noun : String) : Outcome String × World :=
  let guess := if !en then "ett" else "en"
  match w.isCorrect en noun with
  | (Outcome.panic msg, w1) => (Outcome.panic msg, w1)
  | (Outcome.ok true, w1) => (Outcome.ok ("&#9989; " ++ guess ++ " " ++ noun ++ "<br>"), w1)
  | (Outcome.ok false, w1) => (Outcome.ok ("&#10060; " ++ guess ++ " " ++ noun ++ "<br>"), w1)

/-- The function `gameRandom` with the access it makes: the map is ranged over
as it is, no call of `Lock` before. -/
def World.gameRandom (w : World) (words : List String) (r : Nat) : Outcome String × World :=
  (Enellerett.gameRandom words r, w.mapRange)

/-- Every access so far was made with the mutex held. -/
def World.disciplined (w : World) : Bool :=
  w.accesses.all Access.held

/-! ## Notions the claims speak of -/

/-- Whether the text `b` arises from the text `a` by inserting characters that
satisfy `p`. -/
def insertedFrom (p : Char → Bool) : List Char → List Char → Bool
  | [], [] => true
  | _ :: _, [] => false
  | [], c :: b => p c && insertedFrom p [] b
  | a :: as, c :: b => (a = c && insertedFrom p as b) || (p c && insertedFrom p (a :: as) b)

/-- A sequence of `IncrementHits` calls run one after another; a panic ends it. -/
def incrementAll (t : Table) : List String → Outcome Unit × Table
  | [] => (Outcome.ok (), t)
  | key :: keys =>
    match t.IncrementHits key with
    | (Outcome.ok _, t1) => incrementAll t1 keys
    | (Outcome.panic msg, t1) => (Outcome.panic msg, t1)

/-- Every entry of the table has a classification: `en || ett`. -/
def Table.classified (t : Table) : Bool :=
  t.data.all fun p => p.2.en || p.2.ett

/-- The tables the process can be in: the one `NewTable` builds, and what a
lookup with its increment, or an increment, leaves of such a table. -/
inductive Reachable (lowerTable : Char → Char) : Table → Prop where
  | start (en ett : List String) : Reachable lowerTable (NewTable en ett)
  | lookup (t : Table) (word : String) :
    Reachable lowerTable t → Reachable lowerTable (lookupSettled lowerTable t word).2.2
  | increment (t : Table) (key : String) :
    Reachable lowerTable t → Reachable lowerTable (t.IncrementHits key).2

/-! ## Go strings as bytes -/

/-- The rune `utf8.RuneError`. -/
def RuneError : Nat := 0xFFFD

/-- Whether a byte is a continuation byte of UTF-8. -/
def isCont (b : Nat) : Bool :=
  0x80 ≤ b && b ≤ 0xBF

/-- The function `utf8.DecodeRuneInString` on the bytes of a Go string: the rune
and its width; a byte that starts no valid encoding gives `RuneError` and the
width 1. -/
def DecodeRune (s : List Nat) : Nat × Nat :=
  match s with
  | [] => (RuneError, 0)
  | b0 :: t =>
    let b1 := t.getD 0 0
    let b2 := t.getD 1 0
    let b3 := t.getD 2 0
    if b0 < 0x80 then (b0, 1)
    else if 0xC2 ≤ b0 ∧ b0 ≤ 0xDF ∧ isCont b1 = true then
      (b0 % 32 * 64 + b1 % 64, 2)
    else if 0xE0 ≤ b0 ∧ b0 ≤ 0xEF ∧
        (if b0 = 0xE0 then 0xA0 else 0x80) ≤ b1 ∧ b1 ≤ (if b0 = 0xED then 0x9F else 0xBF) ∧
        isCont b2 = true then
      ((b0 % 16 * 64 + b1 % 64) * 64 + b2 % 64, 3)
    else if 0xF0 ≤ b0 ∧ b0 ≤ 0xF4 ∧
        (if b0 = 0xF0 then 0x90 else 0x80) ≤ b1 ∧ b1 ≤ (if b0 = 0xF4 then 0x8F else 0xBF) ∧
        isCont b2 = true ∧ isCont b3 = true then
      (((b0 % 8 * 64 + b1 % 64) * 64 + b2 % 64) * 64 + b3 % 64, 4)
    else (RuneError, 1)

/-- The function `utf8.AppendRune`: the bytes of a rune, those of `RuneError`
for a surrogate or a value out of range. -/
def EncodeRune (r : Nat) : List Nat :=
  if r < 0x80 then [r]
  else if r < 0x800 then [0xC0 + r / 64, 0x80 + r % 64]
  else if 0x10FFFF < r ∨ (0xD800 ≤ r ∧ r ≤ 0xDFFF) then [0xEF, 0xBF, 0xBD]
  else if r < 0x10000 then [0xE0 + r / 4096, 0x80 + r / 64 % 64, 0x80 + r % 64]
  else [0xF0 + r / 262144, 0x80 + r / 4096 % 64, 0x80 + r / 64 % 64, 0x80 + r % 64]

/-- The function `strings.Map` on the bytes of a Go string for a mapping that
drops no rune: every rune, `RuneError` for a stray byte, is mapped and written;
`skip` counts the bytes of the rune read last that are still to pass. -/
def mapRunes (mapping : Nat → Nat) : Nat → List Nat → List Nat
  | _, [] => []
  | skip + 1, _ :: s => mapRunes mapping skip s
  | 0, b :: s =>
    EncodeRune (mapping (DecodeRune (b :: s)).1) ++
      mapRunes mapping ((DecodeRune (b :: s)).2 - 1) s

/-- The function `strings.ToLower` on the bytes of a Go string: arithmetic on a
string of ASCII, `strings.Map` with `unicode.ToLower` on every other. -/
def ToLowerBytes (lowerTable : Char → Char) (s : List Nat) : List Nat :=
  if s.all (fun b => decide (b < 0x80)) = true then
    s.map fun c => if 'A'.toNat ≤ c ∧ c ≤ 'Z'.toNat then c + 32 else c
  else mapRunes (fun r => (unicodeToLower lowerTable (Char.ofNat r)).toNat) 0 s

/-- The key `clean` that `lookup` computes, on the bytes of the raw query. -/
def cleanBytes (lowerTable : Char → Char) (word : List Nat) : List Nat :=
  ToLowerBytes lowerTable (word.filter fun b => !decide (b = 0x20))

/-- The bytes of a string in UTF-8. -/
def utf8 (s : String) : List Nat :=
  s.data.flatMap fun c => EncodeRune c.toNat

/-! ## The map -/

theorem mapGet_mapSet_self (m : List (String × Info)) (k : String) (v : Info) :
    mapGet (mapSet m k v) k = some v := by
  induction m with
  | nil => simp [mapSet, mapGet]
  | cons p m ih =>
    obtain ⟨k', v'⟩ := p
    by_cases h : k' = k
    · simp [mapSet, mapGet, h]
    · simp [mapSet, mapGet, h, ih]

theorem mapGet_mapSet_ne (m : List (String × Info)) (k k' : String) (v : Info)
    (hne : k' ≠ k) : mapGet (mapSet m k v) k' = mapGet m k' := by
  induction m with
  | nil =>
    have h : ¬ k = k' := fun e => hne e.symm
    simp [mapSet, mapGet, h]
  | cons p m ih =>
    obtain ⟨k0, v0⟩ := p
    by_cases h : k0 = k
    · subst h
      have h2 : ¬ k0 = k' := fun e => hne e.symm
      simp [mapSet, mapGet, h2]
    · by_cases h3 : k0 = k'
      · subst h3
        simp [mapSet, mapGet, h]
      · simp [mapSet, mapGet, h, h3, ih]

theorem mapSet_keys_of_mem (m : List (String × Info)) (k : String) (v v' : Info)
    (h : mapGet m k = some v') : (mapSet m k v).map Prod.fst = m.map Prod.fst := by
  induction m with
  | nil => simp [mapGet] at h
  | cons p m ih =>
    obtain ⟨k0, v0⟩ := p
    by_cases h0 : k0 = k
    · simp [mapSet, h0]
    · simp only [mapGet, h0, if_false] at h
      simp [mapSet, h0, ih h]

/-! ## The loader -/

theorem mapGet_loadEn (t : List (String × Info)) (en : List String) (w : String) :
    mapGet (loadEn t en) w = if w ∈ en then some (enInfo w) else mapGet t w := by
  induction en generalizing t with
  | nil => simp [loadEn]
  | cons word rest ih =>
    rw [loadEn, ih]
    by_cases h1 : w ∈ rest
    · simp [h1]
    · by_cases h2 : w = word
      · subst h2
        simp [h1, mapGet_mapSet_self, enInfo]
      · simp [h1, h2, mapGet_mapSet_ne _ _ _ _ h2]

theorem mapGet_loadEtt (t : List (String × Info)) (ett : List String) (w : String) :
    mapGet (loadEtt t ett) w =
      if w ∈ ett then
        (if (mapGet t w).isSome = true ∨ 2 ≤ ett.count w then some (bothInfo w)
         else some (ettInfo w))
      else mapGet t w := by
  induction ett generalizing t with
  | nil => simp [loadEtt]
  | cons word rest ih =>
    by_cases h2 : w = word
    · subst h2
      cases hg : mapGet t w with
      | none =>
        simp only [loadEtt, hg]
        rw [ih]
        by_cases h1 : w ∈ rest
        · have hc : 0 < rest.count w := List.count_pos_iff.mpr h1
          have hc2 : 2 ≤ rest.count w + 1 := by omega
          simp [h1, mapGet_mapSet_self, hc2]
        · have hc : rest.count w = 0 := List.count_eq_zero_of_not_mem h1
          simp [h1, mapGet_mapSet_self, hc, ettInfo]
      | some v =>
        simp only [loadEtt, hg]
        rw [ih]
        by_cases h1 : w ∈ rest
        · simp [h1, mapGet_mapSet_self]
        · simp [h1, mapGet_mapSet_self, bothInfo]
    · have hc : (word :: rest).count w = rest.count w := by
        rw [List.count_cons]
        have : ¬ (word == w) = true := by
          simp only [beq_iff_eq]
          exact fun e => h2 e.symm
        simp [this]
      have hm : w ∈ word :: rest ↔ w ∈ rest := by simp [h2]
      cases hg : mapGet t word with
      | none =>
        simp only [loadEtt, hg]
        rw [ih, mapGet_mapSet_ne _ _ _ _ h2, hc]
        simp only [hm]
      | some v =>
        simp only [loadEtt, hg]
        rw [ih, mapGet_mapSet_ne _ _ _ _ h2, hc]
        simp only [hm]

/-- The entry of every word in the table `NewTable` builds. -/
theorem mapGet_NewTable (en ett : List String) (w : String) :
    mapGet (NewTable en ett).data w =
      if w ∈ ett then
        (if w ∈ en ∨ 2 ≤ ett.count w then some (bothInfo w) else some (ettInfo w))
      else if w ∈ en then some (enInfo w) else none := by
  simp only [NewTable]
  rw [mapGet_loadEtt, mapGet_loadEn]
  by_cases h : w ∈ en <;> simp [h, mapGet]

/-! ## Reading and normalising -/

theorem Read_of_mapGet_some (t : Table) (k : String) (v : Info)
    (h : mapGet t.data k = some v) : t.Read k = (v, true) := by
  simp [Table.Read, h]

theorem Read_of_mapGet_none (t : Table) (k : String)
    (h : mapGet t.data k = none) : t.Read k = (Info.zero, false) := by
  simp [Table.Read, h]

theorem mapGet_of_Read_true (t : Table) (k : String) (h : (t.Read k).2 = true) :
    mapGet t.data k = some (t.Read k).1 := by
  cases hg : mapGet t.data k with
  | none => simp [Table.Read, hg] at h
  | some v => simp [Table.Read, hg]

theorem mapGet_of_Read_false (t : Table) (k : String) (h : (t.Read k).2 = false) :
    mapGet t.data k = none := by
  cases hg : mapGet t.data k with
  | none => rfl
  | some v => simp [Table.Read, hg] at h

theorem flatMap_drop_of_not_mem (old : Char) (l : List Char) (h : old ∉ l) :
    (l.flatMap fun c => if c = old then ([] : List Char) else [c]) = l := by
  induction l with
  | nil => rfl
  | cons c l ih =>
    have hc : ¬ c = old := fun e => h (by simp [e])
    have hl : old ∉ l := fun e => h (by simp [e])
    simp [List.flatMap_cons, hc, ih hl]

theorem ReplaceAll_of_not_mem (w : String) (h : ' ' ∉ w.data) : ReplaceAll w ' ' "" = w := by
  apply String.ext
  show (w.data.flatMap fun c => if c = ' ' then ([] : List Char) else [c]) = w.data
  exact flatMap_drop_of_not_mem ' ' w.data h

theorem clean_of_normal (lowerTable : Char → Char) (w : String)
    (hlow : ToLower lowerTable w = w) (hsp : ' ' ∉ w.data) : clean lowerTable w = w := by
  rw [clean, ReplaceAll_of_not_mem w hsp, hlow]

theorem length_ne_zero_of_ne_empty (w : String) (h : w ≠ "") : ¬ w.length = 0 := by
  intro h0
  apply h
  apply String.ext
  exact List.length_eq_zero.mp h0

theorem lookup_hit (lowerTable : Char → Char) (t : Table) (q : String) (v : Info)
    (hne : clean lowerTable q ≠ "") (hget : mapGet t.data (clean lowerTable q) = some v) :
    lookup lowerTable t q = (v.msg, some (clean lowerTable q)) := by
  have h0 := length_ne_zero_of_ne_empty _ hne
  simp [lookup, h0, Read_of_mapGet_some t _ v hget]

theorem lookup_miss (lowerTable : Char → Char) (t : Table) (q : String)
    (hne : clean lowerTable q ≠ "") (hget : mapGet t.data (clean lowerTable q) = none) :
    lookup lowerTable t q = ("Kunde inte hitta substantivet '" ++ q ++ "'\n", none) := by
  have h0 := length_ne_zero_of_ne_empty _ hne
  simp [lookup, h0, Read_of_mapGet_none t _ hget]

theorem HasPrefix_iff (s pre : String) : HasPrefix s pre = true ↔ pre.data <+: s.data := by
  simp [HasPrefix]

/-- A line of the ett file that occurs once there and not in the en file is
answered with `Ett`. -/
theorem lookup_ett_only_once (lowerTable : Char → Char) (en ett : List String) (w : String)
    (hett : ett.count w = 1) (hen : w ∉ en) (hne : w ≠ "")
    (hlow : ToLower lowerTable w = w) (hsp : ' ' ∉ w.data) :
    (NewTable en ett).Read w = (ettInfo w, true) ∧
      lookup lowerTable (NewTable en ett) w = ("Ett " ++ w ++ "\n", some w) := by
  have hmem : w ∈ ett := List.count_pos_iff.mp (by omega)
  have hget : mapGet (NewTable en ett).data w = some (ettInfo w) := by
    rw [mapGet_NewTable]
    simp [hmem, hen, hett]
  have hc := clean_of_normal lowerTable w hlow hsp
  refine ⟨Read_of_mapGet_some _ _ _ hget, ?_⟩
  have h := lookup_hit lowerTable (NewTable en ett) w (ettInfo w) (by rw [hc]; exact hne)
    (by rw [hc]; exact hget)
  rw [hc] at h
  exact h

theorem prefix_append_sep_iff (c : Char) (w a r : List Char) (hc : c ∉ w) :
    w <+: a ++ c :: r ↔ w <+: a := by
  constructor
  · intro h
    rcases List.prefix_or_prefix_of_prefix h (List.prefix_append a (c :: r)) with h1 | h1
    · exact h1
    · obtain ⟨s, hs⟩ := h1
      subst hs
      rw [List.prefix_append_right_inj] at h
      cases s with
      | nil => simp
      | cons d s =>
        rw [List.cons_prefix_cons] at h
        exact absurd (by simp [h.1]) hc
  · intro h
    exact h.trans (List.prefix_append a (c :: r))

/-! ## Hit counts and the quiz -/

theorem NewTable_hits_zero (en ett : List String) (w : String) (v : Info)
    (h : mapGet (NewTable en ett).data w = some v) : v.hits = 0 := by
  rw [mapGet_NewTable] at h
  split at h
  · split at h
    · cases h
      rfl
    · cases h
      rfl
  · split at h
    · cases h
      rfl
    · cases h

theorem IncrementHits_of_mapGet_some (t : Table) (k : String) (v : Info)
    (h : mapGet t.data k = some v) :
    t.IncrementHits k =
      (Outcome.ok (),
        { data := mapSet t.data k { v with hits := (v.hits + 1) % uint64Size } }) := by
  simp [Table.IncrementHits, h]

theorem lookupSettled_hit (lowerTable : Char → Char) (t : Table) (q : String) (v : Info)
    (hne : clean lowerTable q ≠ "") (hget : mapGet t.data (clean lowerTable q) = some v) :
    lookupSettled lowerTable t q =
      (v.msg, Outcome.ok (),
        { data := mapSet t.data (clean lowerTable q)
            { v with hits := (v.hits + 1) % uint64Size } }) := by
  simp only [lookupSettled, lookup_hit lowerTable t q v hne hget]
  rw [IncrementHits_of_mapGet_some t _ v hget]

/-- The entry of the key read by `q` after `n` settled lookups of `q`. -/
theorem lookupTimes_entry (lowerTable : Char → Char) (t : Table) (q : String) (v : Info)
    (hne : clean lowerTable q ≠ "") (hget : mapGet t.data (clean lowerTable q) = some v)
    (hv : v.hits < uint64Size) (n : Nat) :
    mapGet (lookupTimes lowerTable t q n).data (clean lowerTable q) =
      some { v with hits := (v.hits + n) % uint64Size } := by
  induction n with
  | zero =>
    rw [lookupTimes, hget, Nat.add_zero, Nat.mod_eq_of_lt hv]
  | succ n ih =>
    rw [lookupTimes, lookupSettled_hit lowerTable _ q _ hne ih]
    show mapGet (mapSet _ _ _) _ = _
    rw [mapGet_mapSet_self]
    have : ((v.hits + n) % uint64Size + 1) % uint64Size = (v.hits + (n + 1)) % uint64Size := by
      rw [Nat.add_mod ((v.hits + n) % uint64Size) 1, Nat.mod_mod, ← Nat.add_mod, Nat.add_assoc]
    simp only [this]

/-- The scoring of a guess for a word of a freshly built table. -/
theorem isCorrect_NewTable (en ett : List String) (w : String) (guessEn : Bool)
    (hw : w ∈ en ∨ w ∈ ett) :
    isCorrect (NewTable en ett) guessEn w =
      Outcome.ok (decide (w ∈ en ∨ 2 ≤ ett.count w) == guessEn) := by
  have hget := mapGet_NewTable en ett w
  by_cases h1 : w ∈ ett
  · by_cases h2 : w ∈ en ∨ 2 ≤ ett.count w
    · rw [if_pos h1, if_pos h2] at hget
      simp [isCorrect, Read_of_mapGet_some _ _ _ hget, bothInfo, h2]
    · rw [if_pos h1, if_neg h2] at hget
      simp [isCorrect, Read_of_mapGet_some _ _ _ hget, ettInfo, h2]
  · have h3 : w ∈ en := hw.resolve_right h1
    rw [if_neg h1, if_pos h3] at hget
    simp [isCorrect, Read_of_mapGet_some _ _ _ hget, enInfo, h3]

/-! ## Claims -/

/-- C1: a word that stands twice in the ett list and nowhere in the en list is
not answered with `Ett`: for the lists `[]` and `["bord", "bord"]` the table
holds the en-and-ett entry for `bord`, and `lookup` returns
`En eller ett bord beroende på kontext`, which does not contain `Ett bord`. -/
theorem C1_ett_line_twice (lowerTable : Char → Char) :
    "bord" ∈ ["bord", "bord"] ∧ "bord" ∉ ([] : List String) ∧ "bord" ≠ "" ∧
    ToLower lowerTable "bord" = "bord" ∧ ' ' ∉ "bord".data ∧
    (NewTable [] ["bord", "bord"]).Read "bord" =
      ({ ett := true, en := true, msg := "En eller ett bord beroende på kontext\n",
         hits := 0 }, true) ∧
    lookup lowerTable (NewTable [] ["bord", "bord"]) "bord" =
      ("En eller ett bord beroende på kontext\n", some "bord") ∧
    ¬ Contains (lookup lowerTable (NewTable [] ["bord", "bord"]) "bord").1
      ("Ett " ++ "bord") := by
  have hl : lookup lowerTable (NewTable [] ["bord", "bord"]) "bord" =
      ("En eller ett bord beroende på kontext\n", some "bord") := rfl
  refine ⟨by decide, by decide, by decide, rfl, by decide, by decide, hl, ?_⟩
  rw [hl]
  decide

/-- C2: for a word `w` (non-empty, lower case, without spaces) that is a line
of the en list and no line of the ett list, `lookup` returns exactly
`"En " + w + "\n"`. -/
theorem C2_en_only (lowerTable : Char → Char) (en ett : List String) (w : String)
    (hen : w ∈ en) (hett : w ∉ ett) (hne : w ≠ "")
    (hlow : ToLower lowerTable w = w) (hsp : ' ' ∉ w.data) :
    (lookup lowerTable (NewTable en ett) w).1 = "En " ++ w ++ "\n" := by
  have hget : mapGet (NewTable en ett).data w = some (enInfo w) := by
    rw [mapGet_NewTable]
    simp [hen, hett]
  have hc := clean_of_normal lowerTable w hlow hsp
  rw [lookup_hit lowerTable (NewTable en ett) w (enInfo w) (by rw [hc]; exact hne)
    (by rw [hc]; exact hget)]
  rfl

theorem C2_en_only_witness :
    (lookup swedishLower (NewTable ["stol", "bok", "stol"] ["bord", "bord"]) "stol").1 =
      "En " ++ "stol" ++ "\n" :=
  C2_en_only swedishLower ["stol", "bok", "stol"] ["bord", "bord"] "stol"
    (by decide) (by decide) (by decide) (by decide) (by decide)

/-- C3, as stated, fails for the word `eller`: it stands in both lists, and the
message `En eller ett eller beroende på kontext` starts with `En eller`. -/
theorem C3_eller_starts_with_en :
    "eller" ∈ ["eller"] ∧ "eller" ≠ "" ∧ ToLower swedishLower "eller" = "eller" ∧
    ' ' ∉ "eller".data ∧
    HasPrefix (lookup swedishLower (NewTable ["eller"] ["eller"]) "eller").1
      ("En " ++ "eller") = true := by
  decide

/-- C3, amended: for a word `w` (non-empty, lower case, without spaces) that is
a line of both lists, the table holds `{en:true, ett:true, hits:0}` with the
message `"En eller ett " + w + " beroende på kontext\n"`, `lookup` returns
exactly that message, the message contains `w`, it never starts with
`"Ett " + w`, and it starts with `"En " + w` exactly when `w` is a beginning of
the word `eller`. -/
theorem C3_both (lowerTable : Char → Char) (en ett : List String) (w : String)
    (hen : w ∈ en) (hett : w ∈ ett) (hne : w ≠ "")
    (hlow : ToLower lowerTable w = w) (hsp : ' ' ∉ w.data) :
    (NewTable en ett).Read w =
      ({ ett := true, en := true, msg := "En eller ett " ++ w ++ " beroende på kontext\n",
         hits := 0 }, true) ∧
    (lookup lowerTable (NewTable en ett) w).1 =
      "En eller ett " ++ w ++ " beroende på kontext\n" ∧
    Contains (lookup lowerTable (NewTable en ett) w).1 w ∧
    HasPrefix (lookup lowerTable (NewTable en ett) w).1 ("Ett " ++ w) = false ∧
    (HasPrefix (lookup lowerTable (NewTable en ett) w).1 ("En " ++ w) = true ↔
      HasPrefix "eller" w = true) := by
  have hget : mapGet (NewTable en ett).data w = some (bothInfo w) := by
    rw [mapGet_NewTable]
    simp [hen, hett]
  have hc := clean_of_normal lowerTable w hlow hsp
  have hl : (lookup lowerTable (NewTable en ett) w).1 =
      "En eller ett " ++ w ++ " beroende på kontext\n" := by
    rw [lookup_hit lowerTable (NewTable en ett) w (bothInfo w) (by rw [hc]; exact hne)
      (by rw [hc]; exact hget)]
    rfl
  have hm : ("En eller ett " ++ w ++ " beroende på kontext\n").data =
      'E' :: 'n' :: ' ' :: ("eller".data ++ ' ' ::
        ("ett ".data ++ w.data ++ " beroende på kontext\n".data)) := by
    simp [String.data_append]
  refine ⟨Read_of_mapGet_some _ _ _ hget, hl, ?_, ?_, ?_⟩
  · rw [hl]
    refine ⟨"En eller ett ".data, " beroende på kontext\n".data, ?_⟩
    simp [String.data_append]
  · rw [hl]
    cases hp : HasPrefix ("En eller ett " ++ w ++ " beroende på kontext\n") ("Ett " ++ w) with
    | false => rfl
    | true =>
      rw [HasPrefix_iff, hm] at hp
      have hd : ("Ett " ++ w).data = 'E' :: 't' :: 't' :: ' ' :: w.data := by
        simp [String.data_append]
      rw [hd, List.cons_prefix_cons, List.cons_prefix_cons] at hp
      exact absurd hp.2.1 (by decide)
  · rw [hl, HasPrefix_iff, HasPrefix_iff, hm]
    have hd : ("En " ++ w).data = 'E' :: 'n' :: ' ' :: w.data := by
      simp [String.data_append]
    rw [hd, List.prefix_cons_inj, List.prefix_cons_inj, List.prefix_cons_inj]
    exact prefix_append_sep_iff ' ' w.data "eller".data _ hsp

theorem C3_both_witness :
    (NewTable ["stol", "öl"] ["öl", "bord", "öl"]).Read "öl" =
      ({ ett := true, en := true, msg := "En eller ett " ++ "öl" ++ " beroende på kontext\n",
         hits := 0 }, true) ∧
    (lookup swedishLower (NewTable ["stol", "öl"] ["öl", "bord", "öl"]) "öl").1 =
      "En eller ett " ++ "öl" ++ " beroende på kontext\n" ∧
    Contains (lookup swedishLower (NewTable ["stol", "öl"] ["öl", "bord", "öl"]) "öl").1 "öl" ∧
    HasPrefix (lookup swedishLower (NewTable ["stol", "öl"] ["öl", "bord", "öl"]) "öl").1
      ("Ett " ++ "öl") = false ∧
    (HasPrefix (lookup swedishLower (NewTable ["stol", "öl"] ["öl", "bord", "öl"]) "öl").1
      ("En " ++ "öl") = true ↔ HasPrefix "eller" "öl" = true) :=
  C3_both swedishLower ["stol", "öl"] ["öl", "bord", "öl"] "öl"
    (by decide) (by decide) (by decide) (by decide) (by decide)

/-- C4: for a key `w` of a table (non-empty, lower case, without spaces) and a
raw query `q` whose spaces removed and letters lowered give `w`, `lookup(q)`
returns the message `lookup(w)` returns, the message of the entry of `w`. -/
theorem C4_lookup_case_and_space (lowerTable : Char → Char) (t : Table) (w q : String)
    (hkey : (t.Read w).2 = true) (hne : w ≠ "")
    (hlow : ToLower lowerTable w = w) (hsp : ' ' ∉ w.data)
    (hq : clean lowerTable q = w) :
    (lookup lowerTable t q).1 = (lookup lowerTable t w).1 ∧
    (lookup lowerTable t q).1 = (t.Read w).1.msg := by
  have hc := clean_of_normal lowerTable w hlow hsp
  have hget := mapGet_of_Read_true t w hkey
  have h1 := lookup_hit lowerTable t q (t.Read w).1 (by rw [hq]; exact hne)
    (by rw [hq]; exact hget)
  have h2 := lookup_hit lowerTable t w (t.Read w).1 (by rw [hc]; exact hne)
    (by rw [hc]; exact hget)
  rw [h1, h2]
  exact ⟨rfl, rfl⟩

theorem C4_lookup_case_and_space_witness :
    (lookup swedishLower (NewTable ["stol", "öl"] ["bord", "öl"]) " ÖL ").1 =
      (lookup swedishLower (NewTable ["stol", "öl"] ["bord", "öl"]) "öl").1 ∧
    (lookup swedishLower (NewTable ["stol", "öl"] ["bord", "öl"]) " ÖL ").1 =
      ((NewTable ["stol", "öl"] ["bord", "öl"]).Read "öl").1.msg :=
  C4_lookup_case_and_space swedishLower (NewTable ["stol", "öl"] ["bord", "öl"]) "öl" " ÖL "
    (by decide) (by decide) (by decide) (by decide) (by decide)

/-- C5: for a raw query `q` whose normalised form is non-empty and no key of
the table, `lookup(q)` returns exactly
`"Kunde inte hitta substantivet '" + q + "'\n"` with the raw `q`, starts no
increment, and leaves the table as it was. -/
theorem C5_lookup_miss (lowerTable : Char → Char) (t : Table) (q : String)
    (hne : clean lowerTable q ≠ "") (hkey : (t.Read (clean lowerTable q)).2 = false) :
    lookup lowerTable t q = ("Kunde inte hitta substantivet '" ++ q ++ "'\n", none) ∧
    lookupSettled lowerTable t q =
      ("Kunde inte hitta substantivet '" ++ q ++ "'\n", Outcome.ok (), t) := by
  have h := lookup_miss lowerTable t q hne (mapGet_of_Read_false t _ hkey)
  refine ⟨h, ?_⟩
  simp [lookupSettled, h]

theorem C5_lookup_miss_witness :
    lookup swedishLower (NewTable ["stol"] ["bord"]) " Okänd " =
      ("Kunde inte hitta substantivet '" ++ " Okänd " ++ "'\n", none) ∧
    lookupSettled swedishLower (NewTable ["stol"] ["bord"]) " Okänd " =
      ("Kunde inte hitta substantivet '" ++ " Okänd " ++ "'\n", Outcome.ok (),
        NewTable ["stol"] ["bord"]) :=
  C5_lookup_miss swedishLower (NewTable ["stol"] ["bord"]) " Okänd " (by decide) (by decide)

/-- C6, as stated, fails at `n = 2 ^ 64`: after that many settled lookups of
`stol` in the table of the lists `["stol"]` and `[]` the `uint64` field `hits`
is `0` again. -/
theorem C6_hits_wrap_at_two_pow_64 :
    ((lookupTimes swedishLower (NewTable ["stol"] []) "stol" (2 ^ 64)).Read "stol").1.hits = 0 ∧
    ((lookupTimes swedishLower (NewTable ["stol"] []) "stol" (2 ^ 64)).Read "stol").1.hits
      ≠ 2 ^ 64 := by
  have hc : clean swedishLower "stol" = "stol" := by decide
  have hget : mapGet (NewTable ["stol"] []).data (clean swedishLower "stol") =
      some (enInfo "stol") := by decide
  have h := lookupTimes_entry swedishLower (NewTable ["stol"] []) "stol" (enInfo "stol")
    (by rw [hc]; decide) hget (by decide) (2 ^ 64)
  rw [hc] at h
  have hr := Read_of_mapGet_some _ _ _ h
  rw [hr]
  have h0 : ((enInfo "stol").hits + 2 ^ 64) % uint64Size = 0 := by
    show (0 + 2 ^ 64) % 2 ^ 64 = 0
    rw [Nat.zero_add, Nat.mod_self]
  show ((enInfo "stol").hits + 2 ^ 64) % uint64Size = 0 ∧
    ((enInfo "stol").hits + 2 ^ 64) % uint64Size ≠ 2 ^ 64
  rw [h0]
  exact ⟨rfl, by decide⟩

/-- C6, amended: in a freshly built table, for a query `q` whose normalised
form is non-empty and a key, after `n` lookups of `q`, each followed by its
increment run to completion, the `hits` of that key is `n` modulo `2 ^ 64`,
which is `n` for every `n` below `2 ^ 64`; each of the increments returns
without a panic. -/
theorem C6_hits_after_lookups (lowerTable : Char → Char) (en ett : List String) (q : String)
    (n : Nat) (hne : clean lowerTable q ≠ "")
    (hkey : ((NewTable en ett).Read (clean lowerTable q)).2 = true) :
    ((lookupTimes lowerTable (NewTable en ett) q n).Read (clean lowerTable q)).1.hits =
      n % uint64Size ∧
    (n < uint64Size →
      ((lookupTimes lowerTable (NewTable en ett) q n).Read (clean lowerTable q)).1.hits = n) ∧
    (lookupSettled lowerTable (lookupTimes lowerTable (NewTable en ett) q n) q).2.1 =
      Outcome.ok () := by
  have hget := mapGet_of_Read_true _ _ hkey
  have h0 := NewTable_hits_zero en ett _ _ hget
  have h := lookupTimes_entry lowerTable (NewTable en ett) q _ hne hget
    (by rw [h0]; decide) n
  have hr := Read_of_mapGet_some _ _ _ h
  have hh : ((lookupTimes lowerTable (NewTable en ett) q n).Read (clean lowerTable q)).1.hits =
      n % uint64Size := by
    rw [hr]
    show (((NewTable en ett).Read (clean lowerTable q)).1.hits + n) % uint64Size = _
    rw [h0, Nat.zero_add]
  refine ⟨hh, ?_, ?_⟩
  · intro hn
    rw [hh, Nat.mod_eq_of_lt hn]
  · rw [lookupSettled_hit lowerTable _ q _ hne h]

theorem C6_hits_after_lookups_witness :
    ((lookupTimes swedishLower (NewTable ["stol"] ["bord"]) " Stol" 3).Read
      (clean swedishLower " Stol")).1.hits = 3 % uint64Size ∧
    (3 < uint64Size →
      ((lookupTimes swedishLower (NewTable ["stol"] ["bord"]) " Stol" 3).Read
        (clean swedishLower " Stol")).1.hits = 3) ∧
    (lookupSettled swedishLower
      (lookupTimes swedishLower (NewTable ["stol"] ["bord"]) " Stol" 3) " Stol").2.1 =
      Outcome.ok () :=
  C6_hits_after_lookups swedishLower ["stol"] ["bord"] " Stol" 3 (by decide) (by decide)

/-- C7: for a key `k` of a table, `IncrementHits(k)` returns without a panic and
leaves a table in which the entry of `k` has the same `ett`, `en` and `msg` and
`hits` one higher in `uint64` arithmetic (one higher outright below the top of
the range), every other key reads as before, and the keys are the same. -/
theorem C7_IncrementHits_frame (t : Table) (k : String) (hkey : (t.Read k).2 = true) :
    (t.IncrementHits k).1 = Outcome.ok () ∧
    (t.IncrementHits k).2.Read k =
      ({ ett := (t.Read k).1.ett, en := (t.Read k).1.en, msg := (t.Read k).1.msg,
         hits := ((t.Read k).1.hits + 1) % uint64Size }, true) ∧
    ((t.Read k).1.hits + 1 < uint64Size →
      ((t.IncrementHits k).2.Read k).1.hits = (t.Read k).1.hits + 1) ∧
    (∀ k', k' ≠ k → (t.IncrementHits k).2.Read k' = t.Read k') ∧
    (t.IncrementHits k).2.data.map Prod.fst = t.data.map Prod.fst := by
  have hget := mapGet_of_Read_true t k hkey
  have hi := IncrementHits_of_mapGet_some t k _ hget
  have hr : (t.IncrementHits k).2.Read k =
      ({ ett := (t.Read k).1.ett, en := (t.Read k).1.en, msg := (t.Read k).1.msg,
         hits := ((t.Read k).1.hits + 1) % uint64Size }, true) := by
    rw [hi]
    exact Read_of_mapGet_some _ _ _ (mapGet_mapSet_self _ _ _)
  refine ⟨by rw [hi], hr, ?_, ?_, ?_⟩
  · intro hlt
    rw [hr]
    exact Nat.mod_eq_of_lt hlt
  · intro k' hne
    rw [hi]
    simp only [Table.Read]
    rw [mapGet_mapSet_ne _ _ _ _ hne]
  · rw [hi]
    exact mapSet_keys_of_mem _ _ _ _ hget

theorem C7_IncrementHits_frame_witness :
    ((NewTable ["stol"] ["bord"]).IncrementHits "bord").1 = Outcome.ok () ∧
    ((NewTable ["stol"] ["bord"]).IncrementHits "bord").2.Read "bord" =
      ({ ett := ((NewTable ["stol"] ["bord"]).Read "bord").1.ett,
         en := ((NewTable ["stol"] ["bord"]).Read "bord").1.en,
         msg := ((NewTable ["stol"] ["bord"]).Read "bord").1.msg,
         hits := (((NewTable ["stol"] ["bord"]).Read "bord").1.hits + 1) % uint64Size },
       true) ∧
    (((NewTable ["stol"] ["bord"]).Read "bord").1.hits + 1 < uint64Size →
      (((NewTable ["stol"] ["bord"]).IncrementHits "bord").2.Read "bord").1.hits =
        ((NewTable ["stol"] ["bord"]).Read "bord").1.hits + 1) ∧
    (∀ k', k' ≠ "bord" →
      ((NewTable ["stol"] ["bord"]).IncrementHits "bord").2.Read k' =
        (NewTable ["stol"] ["bord"]).Read k') ∧
    ((NewTable ["stol"] ["bord"]).IncrementHits "bord").2.data.map Prod.fst =
      (NewTable ["stol"] ["bord"]).data.map Prod.fst :=
  C7_IncrementHits_frame (NewTable ["stol"] ["bord"]) "bord" (by decide)

/-- C8: for a key `k` that is not in the table, `IncrementHits(k)` panics with
its message, the table is left as it was, and `k` is still no key of it. -/
theorem C8_IncrementHits_absent (t : Table) (k : String) (hkey : (t.Read k).2 = false) :
    t.IncrementHits k = (Outcome.panic "tried to increment an non existant key", t) ∧
    ((t.IncrementHits k).2.Read k).2 = false := by
  have hget := mapGet_of_Read_false t k hkey
  have hi : t.IncrementHits k =
      (Outcome.panic "tried to increment an non existant key", t) := by
    simp [Table.IncrementHits, hget]
  refine ⟨hi, ?_⟩
  rw [hi]
  exact hkey

theorem C8_IncrementHits_absent_witness :
    (NewTable ["stol"] ["bord"]).IncrementHits "okänd" =
      (Outcome.panic "tried to increment an non existant key", NewTable ["stol"] ["bord"]) ∧
    (((NewTable ["stol"] ["bord"]).IncrementHits "okänd").2.Read "okänd").2 = false :=
  C8_IncrementHits_absent (NewTable ["stol"] ["bord"]) "okänd" (by decide)

/-- C9: for a noun that is a key of the table and a guess, `isCorrect` returns
whether the `en` flag of the entry equals the guess, and `gameCheck` returns
`"&#9989; " + article + " " + noun + "<br>"` when it does and
`"&#10060; " + article + " " + noun + "<br>"` when it does not, the article
being `en` for an en guess and `ett` for an ett guess. -/
theorem C9_gameCheck (t : Table) (guessEn : Bool) (noun : String)
    (hkey : (t.Read noun).2 = true) :
    isCorrect t guessEn noun = Outcome.ok ((t.Read noun).1.en == guessEn) ∧
    gameCheck t guessEn noun =
      Outcome.ok ((if (t.Read noun).1.en == guessEn then "&#9989; " else "&#10060; ") ++
        (if guessEn then "en" else "ett") ++ " " ++ noun ++ "<br>") := by
  have hget := mapGet_of_Read_true t noun hkey
  have hr := Read_of_mapGet_some t noun _ hget
  have hc : isCorrect t guessEn noun = Outcome.ok ((t.Read noun).1.en == guessEn) := by
    generalize (t.Read noun).1 = v at hr
    simp [isCorrect, hr]
  refine ⟨hc, ?_⟩
  simp only [gameCheck, hc]
  cases hb : ((t.Read noun).1.en == guessEn) <;> cases guessEn <;> simp

theorem C9_gameCheck_witness :
    isCorrect (NewTable ["stol", "öl"] ["bord", "öl"]) false "öl" =
      Outcome.ok (((NewTable ["stol", "öl"] ["bord", "öl"]).Read "öl").1.en == false) ∧
    gameCheck (NewTable ["stol", "öl"] ["bord", "öl"]) false "öl" =
      Outcome.ok
        ((if ((NewTable ["stol", "öl"] ["bord", "öl"]).Read "öl").1.en == false
          then "&#9989; " else "&#10060; ") ++
        (if false then "en" else "ett") ++ " " ++ "öl" ++ "<br>") :=
  C9_gameCheck (NewTable ["stol", "öl"] ["bord", "öl"]) false "öl" (by decide)

/-- C10: a word that stands twice in the ett list and nowhere in the en list
is scored as an en word: for the lists `[]` and `["bord", "bord"]` the guess
`ett` for `bord` is scored incorrect and the guess `en` is scored correct. -/
theorem C10_ett_line_twice :
    "bord" ∉ ([] : List String) ∧ "bord" ∈ ["bord", "bord"] ∧
    ((NewTable [] ["bord", "bord"]).Read "bord").2 = true ∧
    isCorrect (NewTable [] ["bord", "bord"]) false "bord" = Outcome.ok false ∧
    gameCheck (NewTable [] ["bord", "bord"]) false "bord" =
      Outcome.ok "&#10060; ett bord<br>" ∧
    isCorrect (NewTable [] ["bord", "bord"]) true "bord" = Outcome.ok true ∧
    gameCheck (NewTable [] ["bord", "bord"]) true "bord" =
      Outcome.ok "&#9989; en bord<br>" := by
  decide

/-! ## The quiz draw -/

theorem mem_map_fst_iff (m : List (String × Info)) (k : String) :
    k ∈ m.map Prod.fst ↔ ∃ v, mapGet m k = some v := by
  induction m with
  | nil => simp [mapGet]
  | cons p m ih =>
    obtain ⟨k0, v0⟩ := p
    by_cases h : k0 = k
    · subst h
      simp [mapGet]
    · have h2 : ¬ k = k0 := fun e => h e.symm
      simp [mapGet, h, h2, ih]

theorem mem_mapKeys_iff (t : Table) (k : String) :
    k ∈ mapKeys t.data ↔ (t.Read k).2 = true := by
  rw [mapKeys, List.mem_dedup, mem_map_fst_iff]
  constructor
  · rintro ⟨v, hv⟩
    rw [Read_of_mapGet_some t k v hv]
  · intro h
    exact ⟨_, mapGet_of_Read_true t k h⟩

/-- The drawn index is within the sequence: the draw yields one of its words. -/
theorem drawWord_mem (words : List String) (r : Nat) (hne : words ≠ []) :
    ∃ word, drawWord words r = Outcome.ok word ∧ word ∈ words := by
  have hlen : 0 < words.length := List.length_pos.mpr hne
  have hlt : r % words.length < words.length := Nat.mod_lt _ hlen
  refine ⟨words.get ⟨r % words.length, hlt⟩, ?_, List.get_mem _ _ _⟩
  have h0 : ¬ words.length = 0 := by omega
  simp only [drawWord, Intn, h0, if_false]
  rw [List.get?_eq_get hlt]

/-- Every word of the sequence is drawn for some value of the random source. -/
theorem drawWord_onto (words : List String) (word : String) (h : word ∈ words) :
    ∃ r, drawWord words r = Outcome.ok word := by
  obtain ⟨n, hn⟩ := List.mem_iff_get?.mp h
  obtain ⟨hlt, _⟩ := List.get?_eq_some.mp hn
  refine ⟨n, ?_⟩
  have h0 : ¬ words.length = 0 := by omega
  simp only [drawWord, Intn, h0, if_false]
  rw [Nat.mod_eq_of_lt hlt, hn]

/-- For a non-empty table and a sequence of its keys in any order, the word
drawn is a key of the table, and every key is drawn for some value of the
random source. -/
theorem drawWord_keys (t : Table) (words : List String) (hp : words.Perm (mapKeys t.data))
    (hne : mapKeys t.data ≠ []) :
    (∀ r, ∃ word, drawWord words r = Outcome.ok word ∧ (t.Read word).2 = true) ∧
    (∀ key, (t.Read key).2 = true → ∃ r, drawWord words r = Outcome.ok key) := by
  have hne2 : words ≠ [] := by
    intro e
    rw [e] at hp
    exact hne hp.symm.eq_nil
  constructor
  · intro r
    obtain ⟨word, hw, hm⟩ := drawWord_mem words r hne2
    exact ⟨word, hw, (mem_mapKeys_iff t word).mp (hp.mem_iff.mp hm)⟩
  · intro key hk
    exact drawWord_onto words key (hp.mem_iff.mpr ((mem_mapKeys_iff t key).mpr hk))

theorem doPrintf_of_no_percent (s : List Char) (h : '%' ∉ s) : doPrintf 0 s = s := by
  induction s with
  | nil => rfl
  | cons c s ih =>
    have hc : ¬ c = '%' := fun e => h (by simp [e])
    have hs : '%' ∉ s := fun e => h (by simp [e])
    simp [doPrintf, hc, ih hs]

/-- A format without `%` is written as it is. -/
theorem Fprintf_of_no_percent (s : String) (h : '%' ∉ s.data) : Fprintf s = s := by
  apply String.ext
  exact doPrintf_of_no_percent s.data h

/-- The body `gameRandom` writes is the drawn key itself when the key holds no `%`. -/
theorem gameRandom_of_no_percent (words : List String) (r : Nat) (word : String)
    (hd : drawWord words r = Outcome.ok word) (h : '%' ∉ word.data) :
    gameRandom words r = Outcome.ok word := by
  simp [gameRandom, hd, Fprintf_of_no_percent word h]

/-! ## The classification of the entries -/

theorem all_mapSet (p : String × Info → Bool) (m : List (String × Info)) (k : String)
    (v : Info) (hm : m.all p = true) (hv : p (k, v) = true) : (mapSet m k v).all p = true := by
  induction m with
  | nil => simp [mapSet, hv]
  | cons e m ih =>
    obtain ⟨k0, v0⟩ := e
    simp only [List.all_cons, Bool.and_eq_true] at hm
    by_cases h : k0 = k
    · simp [mapSet, h, hv, hm.2]
    · simp [mapSet, h, hm.1, ih hm.2]

theorem mapGet_mem (m : List (String × Info)) (k : String) (v : Info)
    (h : mapGet m k = some v) : (k, v) ∈ m := by
  induction m with
  | nil => simp [mapGet] at h
  | cons e m ih =>
    obtain ⟨k0, v0⟩ := e
    by_cases h0 : k0 = k
    · simp only [mapGet, h0, if_true, Option.some.injEq] at h
      simp [h0, h]
    · simp only [mapGet, h0, if_false] at h
      simp [ih h]

theorem classified_entry (t : Table) (k : String) (v : Info) (hc : t.classified = true)
    (h : mapGet t.data k = some v) : (v.en || v.ett) = true := by
  rw [Table.classified, List.all_eq_true] at hc
  exact hc (k, v) (mapGet_mem t.data k v h)

theorem loadEn_all (t : List (String × Info)) (en : List String)
    (ht : (t.all fun p => p.2.en || p.2.ett) = true) :
    ((loadEn t en).all fun p => p.2.en || p.2.ett) = true := by
  induction en generalizing t with
  | nil => exact ht
  | cons word rest ih =>
    rw [loadEn]
    exact ih _ (all_mapSet _ t word _ ht rfl)

theorem loadEtt_all (t : List (String × Info)) (ett : List String)
    (ht : (t.all fun p => p.2.en || p.2.ett) = true) :
    ((loadEtt t ett).all fun p => p.2.en || p.2.ett) = true := by
  induction ett generalizing t with
  | nil => exact ht
  | cons word rest ih =>
    cases hg : mapGet t word with
    | none =>
      simp only [loadEtt, hg]
      exact ih _ (all_mapSet _ t word _ ht rfl)
    | some v =>
      simp only [loadEtt, hg]
      exact ih _ (all_mapSet _ t word _ ht rfl)

theorem NewTable_classified (en ett : List String) : (NewTable en ett).classified = true :=
  loadEtt_all _ ett (loadEn_all [] en rfl)

theorem IncrementHits_classified (t : Table) (k : String) (hc : t.classified = true) :
    (t.IncrementHits k).2.classified = true := by
  cases hg : mapGet t.data k with
  | none =>
    simp only [Table.IncrementHits, hg]
    exact hc
  | some v =>
    rw [IncrementHits_of_mapGet_some t k v hg]
    exact all_mapSet _ t.data k _ hc (classified_entry t k v hc hg)

theorem lookupSettled_table (lowerTable : Char → Char) (t : Table) (q : String) :
    (lookupSettled lowerTable t q).2.2 = t ∨
    (lookupSettled lowerTable t q).2.2 = (t.IncrementHits (clean lowerTable q)).2 := by
  by_cases h0 : (clean lowerTable q).length = 0
  · left
    simp [lookupSettled, lookup, h0]
  · cases hg : mapGet t.data (clean lowerTable q) with
    | none =>
      left
      simp [lookupSettled, lookup, h0, Read_of_mapGet_none t _ hg]
    | some v =>
      right
      simp [lookupSettled, lookup, h0, Read_of_mapGet_some t _ v hg]

theorem lookupSettled_classified (lowerTable : Char → Char) (t : Table) (q : String)
    (hc : t.classified = true) : (lookupSettled lowerTable t q).2.2.classified = true := by
  rcases lookupSettled_table lowerTable t q with h | h
  · rw [h]
    exact hc
  · rw [h]
    exact IncrementHits_classified t _ hc

theorem Reachable_classified (lowerTable : Char → Char) (t : Table)
    (hr : Reachable lowerTable t) : t.classified = true := by
  induction hr with
  | start en ett => exact NewTable_classified en ett
  | lookup t word _ ih => exact lookupSettled_classified lowerTable t word ih
  | increment t key _ ih => exact IncrementHits_classified t key ih

/-! ## The accesses to the map -/

theorem World_Read_eq (w : World) (k : String) :
    w.Read k =
      (Table.Read { data := w.data } k,
        { data := w.data, held := false, accesses := w.accesses ++ [Access.read k true] }) := by
  cases hg : mapGet w.data k with
  | none => simp [World.Read, World.Lock, World.Unlock, World.mapRead, Table.Read, hg]
  | some v => simp [World.Read, World.Lock, World.Unlock, World.mapRead, Table.Read, hg]

theorem World_Read_data (w : World) (k : String) : (w.Read k).2.data = w.data := by
  rw [World_Read_eq]


/-! ## Sequences of increments -/

theorem IncrementHits_of_mapGet_none (t : Table) (k : String) (h : mapGet t.data k = none) :
    t.IncrementHits k = (Outcome.panic "tried to increment an non existant key", t) := by
  simp [Table.IncrementHits, h]

theorem mapGet_IncrementHits_self (t : Table) (k : String) (v : Info)
    (h : mapGet t.data k = some v) :
    mapGet (t.IncrementHits k).2.data k =
      some { v with hits := (v.hits + 1) % uint64Size } := by
  rw [IncrementHits_of_mapGet_some t k v h]
  exact mapGet_mapSet_self _ _ _

theorem mapGet_IncrementHits_ne (t : Table) (k k' : String) (hne : k' ≠ k) :
    mapGet (t.IncrementHits k).2.data k' = mapGet t.data k' := by
  cases hg : mapGet t.data k with
  | none => rw [IncrementHits_of_mapGet_none t k hg]
  | some v =>
    rw [IncrementHits_of_mapGet_some t k v hg]
    exact mapGet_mapSet_ne _ _ _ _ hne

theorem mapSet_comm (m : List (String × Info)) (a b : String) (va vb va0 vb0 : Info)
    (hab : a ≠ b) (ha : mapGet m a = some va0) (hb : mapGet m b = some vb0) :
    mapSet (mapSet m a va) b vb = mapSet (mapSet m b vb) a va := by
  induction m with
  | nil => simp [mapGet] at ha
  | cons e m ih =>
    obtain ⟨k0, v0⟩ := e
    by_cases h1 : k0 = a
    · subst h1
      have h2 : ¬ k0 = b := hab
      simp [mapSet, h2]
    · by_cases h2 : k0 = b
      · subst h2
        simp [mapSet, h1]
      · simp only [mapGet, h1, if_false] at ha
        simp only [mapGet, h2, if_false] at hb
        simp [mapSet, h1, h2, ih ha hb]

/-- Two increments give the same table in either order. -/
theorem IncrementHits_comm (t : Table) (a b : String) :
    ((t.IncrementHits a).2.IncrementHits b).2 = ((t.IncrementHits b).2.IncrementHits a).2 := by
  by_cases hab : a = b
  · rw [hab]
  · have hba : b ≠ a := fun e => hab e.symm
    cases ha : mapGet t.data a with
    | none =>
      have ha2 : mapGet (t.IncrementHits b).2.data a = none := by
        rw [mapGet_IncrementHits_ne t b a hab, ha]
      rw [IncrementHits_of_mapGet_none t a ha, IncrementHits_of_mapGet_none _ a ha2]
    | some va =>
      cases hb : mapGet t.data b with
      | none =>
        have hb2 : mapGet (t.IncrementHits a).2.data b = none := by
          rw [mapGet_IncrementHits_ne t a b hba, hb]
        rw [IncrementHits_of_mapGet_none t b hb, IncrementHits_of_mapGet_none _ b hb2]
      | some vb =>
        have ha2 : mapGet (t.IncrementHits b).2.data a = some va := by
          rw [mapGet_IncrementHits_ne t b a hab, ha]
        have hb2 : mapGet (t.IncrementHits a).2.data b = some vb := by
          rw [mapGet_IncrementHits_ne t a b hba, hb]
        rw [IncrementHits_of_mapGet_some _ b vb hb2, IncrementHits_of_mapGet_some _ a va ha2,
          IncrementHits_of_mapGet_some t a va ha, IncrementHits_of_mapGet_some t b vb hb]
        simp only [Table.mk.injEq]
        exact mapSet_comm t.data a b _ _ va vb hab ha hb

theorem Read_IncrementHits_true (t : Table) (k k' : String) (h : (t.Read k').2 = true) :
    ((t.IncrementHits k).2.Read k').2 = true := by
  by_cases hk : k' = k
  · subst hk
    rw [Read_of_mapGet_some _ _ _ (mapGet_IncrementHits_self t k' _ (mapGet_of_Read_true t k' h))]
  · have hg := mapGet_IncrementHits_ne t k k' hk
    rw [mapGet_of_Read_true t k' h] at hg
    rw [Read_of_mapGet_some _ _ _ hg]

/-- A sequence of increments of keys of the table runs without a panic and
leaves the table of the increments folded from the left. -/
theorem incrementAll_eq_foldl (t : Table) (keys : List String)
    (hk : ∀ k ∈ keys, (t.Read k).2 = true) :
    incrementAll t keys =
      (Outcome.ok (), keys.foldl (fun (s : Table) k => (s.IncrementHits k).2) t) := by
  induction keys generalizing t with
  | nil => rfl
  | cons k keys ih =>
    have hget := mapGet_of_Read_true t k (hk k (by simp))
    have hstep := IncrementHits_of_mapGet_some t k _ hget
    have hrest : ∀ k' ∈ keys, ((t.IncrementHits k).2.Read k').2 = true := by
      intro k' hm
      exact Read_IncrementHits_true t k k' (hk k' (by simp [hm]))
    have h2 := ih (t.IncrementHits k).2 hrest
    rw [List.foldl_cons, ← h2]
    rw [hstep]
    simp [incrementAll, hstep]

theorem foldl_IncrementHits_entry (t : Table) (keys : List String) (a : String) (v : Info)
    (h : mapGet t.data a = some v) :
    mapGet (keys.foldl (fun (s : Table) k => (s.IncrementHits k).2) t).data a =
      some { v with hits := (fun x => (x + 1) % uint64Size)^[keys.count a] v.hits } := by
  induction keys generalizing t v with
  | nil => simp [h]
  | cons k keys ih =>
    rw [List.foldl_cons]
    by_cases hk : k = a
    · subst hk
      rw [ih _ _ (mapGet_IncrementHits_self t k v h)]
      simp [List.count_cons]
    · have hne : a ≠ k := fun e => hk e.symm
      have hg : mapGet (t.IncrementHits k).2.data a = some v := by
        rw [mapGet_IncrementHits_ne t k a hne, h]
      rw [ih _ _ hg]
      have hb : ¬ (k == a) = true := by simpa using hk
      simp [List.count_cons, hb]

theorem iterate_succ_mod_pos (n h : Nat) (hn : 0 < n) :
    (fun x => (x + 1) % uint64Size)^[n] h = (h + n) % uint64Size := by
  induction n generalizing h with
  | zero => omega
  | succ n ih =>
    rw [Function.iterate_succ_apply]
    by_cases h0 : n = 0
    · subst h0
      rfl
    · rw [ih _ (by omega), Nat.add_mod ((h + 1) % uint64Size) n, Nat.mod_mod, ← Nat.add_mod]
      congr 1
      omega

theorem iterate_succ_mod_lt (n h : Nat) (hlt : h + n < uint64Size) :
    (fun x => (x + 1) % uint64Size)^[n] h = h + n := by
  by_cases h0 : n = 0
  · subst h0
    rfl
  · rw [iterate_succ_mod_pos n h (by omega), Nat.mod_eq_of_lt hlt]


/-! ## The mutex -/

theorem World_IncrementHits_eq (w : World) (k : String) :
    w.IncrementHits k =
      ((Table.IncrementHits { data := w.data } k).1,
        { data := (Table.IncrementHits { data := w.data } k).2.data, held := false,
          accesses := w.accesses ++
            (match mapGet w.data k with
             | none => [Access.read k true]
             | some _ => [Access.read k true, Access.write k true]) }) := by
  cases hg : mapGet w.data k with
  | none =>
    simp [World.IncrementHits, World.Lock, World.Unlock, World.mapRead, Table.IncrementHits, hg]
  | some v =>
    simp [World.IncrementHits, World.Lock, World.Unlock, World.mapRead, World.mapWrite,
      Table.IncrementHits, hg]

theorem World_isCorrect_eq (w : World) (guessEn : Bool) (noun : String) :
    w.isCorrect guessEn noun = (isCorrect { data := w.data } guessEn noun, (w.Read noun).2) := by
  cases hg : mapGet w.data noun with
  | none => simp [World.isCorrect, isCorrect, World_Read_eq, Table.Read, hg]
  | some v => simp [World.isCorrect, isCorrect, World_Read_eq, Table.Read, hg]

theorem World_gameCheck_eq (w : World) (guessEn : Bool) (noun : String) :
    w.gameCheck guessEn noun = (gameCheck { data := w.data } guessEn noun, (w.Read noun).2) := by
  simp only [World.gameCheck, gameCheck, World_isCorrect_eq]
  cases isCorrect { data := w.data } guessEn noun with
  | panic msg => rfl
  | ok b => cases b <;> rfl

theorem World_lookup_eq (lowerTable : Char → Char) (w : World) (word : String) :
    (w.lookup lowerTable word).1 = lookup lowerTable { data := w.data } word ∧
    (w.lookup lowerTable word).2.data = w.data := by
  by_cases h0 : (clean lowerTable word).length = 0
  · simp [World.lookup, lookup, h0]
  · cases hg : mapGet w.data (clean lowerTable word) with
    | none => simp [World.lookup, lookup, h0, World_Read_eq, Table.Read, hg]
    | some v => simp [World.lookup, lookup, h0, World_Read_eq, Table.Read, hg]

theorem World_Read_disciplined (w : World) (k : String) (h : w.disciplined = true) :
    (w.Read k).2.disciplined = true := by
  rw [World_Read_eq]
  simp only [World.disciplined] at h
  simp [World.disciplined, h, Access.held]

theorem World_IncrementHits_disciplined (w : World) (k : String) (h : w.disciplined = true) :
    (w.IncrementHits k).2.disciplined = true := by
  rw [World_IncrementHits_eq]
  simp only [World.disciplined] at h
  cases hg : mapGet w.data k with
  | none => simp [World.disciplined, h, Access.held]
  | some v => simp [World.disciplined, h, Access.held]

/-! ## Spaces in the query -/

theorem flatMap_drop_eq_filter (l : List Char) :
    (l.flatMap fun c => if c = ' ' then ([] : List Char) else [c]) =
      l.filter fun c => !decide (c = ' ') := by
  induction l with
  | nil => rfl
  | cons c l ih =>
    by_cases h : c = ' '
    · simp [List.flatMap_cons, h, ih]
    · simp [List.flatMap_cons, h, ih]

theorem ReplaceAll_space_data (s : String) :
    (ReplaceAll s ' ' "").data = s.data.filter fun c => !decide (c = ' ') :=
  flatMap_drop_eq_filter s.data

theorem insertedFrom_space_filter (a b : List Char)
    (h : insertedFrom (fun c => decide (c = ' ')) a b = true) :
    (b.filter fun c => !decide (c = ' ')) = a.filter fun c => !decide (c = ' ') := by
  induction b generalizing a with
  | nil =>
    cases a with
    | nil => rfl
    | cons x xs => simp [insertedFrom] at h
  | cons c b ih =>
    cases a with
    | nil =>
      simp only [insertedFrom, Bool.and_eq_true, decide_eq_true_eq] at h
      rw [List.filter_cons]
      simp [h.1, ih [] h.2]
    | cons x xs =>
      simp only [insertedFrom, Bool.or_eq_true, Bool.and_eq_true, decide_eq_true_eq] at h
      rcases h with ⟨hx, hr⟩ | ⟨hc, hr⟩
      · subst hx
        rw [List.filter_cons, List.filter_cons, ih xs hr]
      · rw [List.filter_cons]
        simp [hc, ih (x :: xs) hr]

theorem clean_eq_of_filter_eq (lowerTable : Char → Char) (q q' : String)
    (h : (q'.data.filter fun c => !decide (c = ' ')) = q.data.filter fun c => !decide (c = ' ')) :
    clean lowerTable q' = clean lowerTable q := by
  have hr : ReplaceAll q' ' ' "" = ReplaceAll q ' ' "" := by
    apply String.ext
    rw [ReplaceAll_space_data, ReplaceAll_space_data, h]
  rw [clean, clean, hr]

theorem lookup_snd_of_clean_eq (lowerTable : Char → Char) (t : Table) (q q' : String)
    (h : clean lowerTable q' = clean lowerTable q) :
    (lookup lowerTable t q').2 = (lookup lowerTable t q).2 := by
  by_cases h0 : (clean lowerTable q).length = 0
  · simp [lookup, h, h0]
  · cases hg : mapGet t.data (clean lowerTable q) with
    | none => simp [lookup, h, h0, Read_of_mapGet_none t _ hg]
    | some v => simp [lookup, h, h0, Read_of_mapGet_some t _ v hg]

theorem lookup_fst_of_clean_eq (lowerTable : Char → Char) (t : Table) (q q' : String)
    (h : clean lowerTable q' = clean lowerTable q)
    (hkey : (t.Read (clean lowerTable q)).2 = true) :
    (lookup lowerTable t q').1 = (lookup lowerTable t q).1 := by
  by_cases h0 : (clean lowerTable q).length = 0
  · simp [lookup, h, h0]
  · cases hg : mapGet t.data (clean lowerTable q) with
    | none => simp [Read_of_mapGet_none t _ hg] at hkey
    | some v => simp [lookup, h, h0, Read_of_mapGet_some t _ v hg]


/-! ## The handler -/

/-- The body `handleCurl` writes is the message of `lookup` for the lowered and
trimmed path when that message holds no `%`. -/
theorem handleCurl_body_of_no_percent (lowerTable : Char → Char) (t : Table)
    (host path : String) (hlen : path.utf8ByteSize ≠ 1)
    (h : '%' ∉ (lookup lowerTable t
      (TrimSpace (ToLower lowerTable (TrimPrefix path "/")))).1.data) :
    handleCurl lowerTable t host path =
      lookup lowerTable t (TrimSpace (ToLower lowerTable (TrimPrefix path "/"))) := by
  simp only [handleCurl, hlen, if_false]
  rw [Fprintf_of_no_percent _ h]

/-! ## The keys of a built table -/

theorem mapGet_NewTable_perm (en ett en' ett' : List String) (w : String)
    (hen : en.Perm en') (hett : ett.Perm ett') :
    mapGet (NewTable en ett).data w = mapGet (NewTable en' ett').data w := by
  rw [mapGet_NewTable, mapGet_NewTable, hett.count_eq w]
  simp only [hen.mem_iff, hett.mem_iff]

theorem Read_NewTable_iff (en ett : List String) (w : String) :
    ((NewTable en ett).Read w).2 = true ↔ (w ∈ en ∨ w ∈ ett) := by
  simp only [Table.Read]
  rw [mapGet_NewTable]
  by_cases h1 : w ∈ ett
  · by_cases h2 : w ∈ en ∨ 2 ≤ ett.count w
    · simp [h1, h2]
    · simp [h1, h2]
  · by_cases h3 : w ∈ en
    · simp [h1, h3]
    · simp [h1, h3]

/-! ## Normalising twice -/

theorem toNat_ofNat_add_32 (c : Char) (h1 : 65 ≤ c.toNat) (h2 : c.toNat ≤ 90) :
    (Char.ofNat (c.toNat + 32)).toNat = c.toNat + 32 := by
  have : c = Char.ofNat c.toNat := (Char.ofNat_toNat c).symm
  generalize c.toNat = n at *
  interval_cases n <;> rfl

theorem toNat_eq_32_iff (c : Char) : c.toNat = 32 ↔ c = ' ' := by
  constructor
  · intro h
    rw [← Char.ofNat_toNat c, h]
  · intro h
    rw [h]
    rfl

theorem unicodeToLower_idem (lowerTable : Char → Char)
    (hidem : ∀ c, 0x7F < c.toNat → unicodeToLower lowerTable (lowerTable c) = lowerTable c)
    (c : Char) :
    unicodeToLower lowerTable (unicodeToLower lowerTable c) = unicodeToLower lowerTable c := by
  have hA : 'A'.toNat = 65 := rfl
  have hZ : 'Z'.toNat = 90 := rfl
  by_cases h1 : c.toNat ≤ 0x7F
  · by_cases h2 : 'A'.toNat ≤ c.toNat ∧ c.toNat ≤ 'Z'.toNat
    · have hn := toNat_ofNat_add_32 c (by omega) (by omega)
      have h3 : (Char.ofNat (c.toNat + 32)).toNat ≤ 0x7F := by omega
      have h4 : ¬ ('A'.toNat ≤ (Char.ofNat (c.toNat + 32)).toNat ∧
          (Char.ofNat (c.toNat + 32)).toNat ≤ 'Z'.toNat) := by omega
      have e : unicodeToLower lowerTable c = Char.ofNat (c.toNat + 32) := by
        rw [unicodeToLower, if_pos h1, if_pos h2]
      rw [e, unicodeToLower, if_pos h3, if_neg h4]
    · have e : unicodeToLower lowerTable c = c := by
        rw [unicodeToLower, if_pos h1, if_neg h2]
      rw [e, e]
  · have e : unicodeToLower lowerTable c = lowerTable c := by
      rw [unicodeToLower, if_neg h1]
    rw [e]
    exact hidem c (by omega)

theorem unicodeToLower_eq_space_iff (lowerTable : Char → Char)
    (hnosp : ∀ c, 0x7F < c.toNat → lowerTable c ≠ ' ') (c : Char) :
    unicodeToLower lowerTable c = ' ' ↔ c = ' ' := by
  have hA : 'A'.toNat = 65 := rfl
  have hZ : 'Z'.toNat = 90 := rfl
  by_cases h1 : c.toNat ≤ 0x7F
  · by_cases h2 : 'A'.toNat ≤ c.toNat ∧ c.toNat ≤ 'Z'.toNat
    · have hn := toNat_ofNat_add_32 c (by omega) (by omega)
      have e : unicodeToLower lowerTable c = Char.ofNat (c.toNat + 32) := by
        rw [unicodeToLower, if_pos h1, if_pos h2]
      rw [e, ← toNat_eq_32_iff, ← toNat_eq_32_iff c]
      omega
    · have e : unicodeToLower lowerTable c = c := by
        rw [unicodeToLower, if_pos h1, if_neg h2]
      rw [e]
  · have e : unicodeToLower lowerTable c = lowerTable c := by
      rw [unicodeToLower, if_neg h1]
    rw [e, ← toNat_eq_32_iff c]
    constructor
    · intro h
      exact absurd h (hnosp c (by omega))
    · intro h
      omega

theorem filter_space_map (lowerTable : Char → Char)
    (hnosp : ∀ c, 0x7F < c.toNat → lowerTable c ≠ ' ') (l : List Char) :
    ((l.map (unicodeToLower lowerTable)).filter fun c => !decide (c = ' ')) =
      (l.filter fun c => !decide (c = ' ')).map (unicodeToLower lowerTable) := by
  rw [List.filter_map]
  congr 1
  apply List.filter_congr
  intro c _
  simp only [Function.comp]
  by_cases h : c = ' '
  · simp [h, (unicodeToLower_eq_space_iff lowerTable hnosp ' ').mpr rfl]
  · have h2 : ¬ unicodeToLower lowerTable c = ' ' :=
      fun e => h ((unicodeToLower_eq_space_iff lowerTable hnosp c).mp e)
    simp [h, h2]

theorem clean_data (lowerTable : Char → Char) (q : String) :
    (clean lowerTable q).data =
      (q.data.filter fun c => !decide (c = ' ')).map (unicodeToLower lowerTable) := by
  show ((ReplaceAll q ' ' "").data.map (unicodeToLower lowerTable)) = _
  rw [ReplaceAll_space_data]

theorem clean_ToLower (lowerTable : Char → Char)
    (hidem : ∀ c, 0x7F < c.toNat → unicodeToLower lowerTable (lowerTable c) = lowerTable c)
    (hnosp : ∀ c, 0x7F < c.toNat → lowerTable c ≠ ' ') (q : String) :
    clean lowerTable (ToLower lowerTable q) = clean lowerTable q := by
  apply String.ext
  rw [clean_data, clean_data]
  show (((q.data.map (unicodeToLower lowerTable)).filter fun c => !decide (c = ' ')).map
    (unicodeToLower lowerTable)) = _
  rw [filter_space_map lowerTable hnosp, List.map_map]
  apply List.map_congr_left
  intro c _
  exact unicodeToLower_idem lowerTable hidem c

theorem clean_clean (lowerTable : Char → Char)
    (hidem : ∀ c, 0x7F < c.toNat → unicodeToLower lowerTable (lowerTable c) = lowerTable c)
    (hnosp : ∀ c, 0x7F < c.toNat → lowerTable c ≠ ' ') (q : String) :
    clean lowerTable (clean lowerTable q) = clean lowerTable q := by
  apply String.ext
  rw [clean_data, clean_data, filter_space_map lowerTable hnosp, List.filter_filter,
    List.map_map]
  simp only [Bool.and_self]
  apply List.map_congr_left
  intro c _
  exact unicodeToLower_idem lowerTable hidem c

theorem filter_dropWhile_isSpace (l : List Char)
    (h : ∀ c ∈ l, isSpace c = true → c = ' ') :
    ((l.dropWhile isSpace).filter fun c => !decide (c = ' ')) =
      l.filter fun c => !decide (c = ' ') := by
  induction l with
  | nil => rfl
  | cons c l ih =>
    have hl : ∀ d ∈ l, isSpace d = true → d = ' ' := fun d hd => h d (by simp [hd])
    rw [List.dropWhile_cons]
    by_cases hc : isSpace c = true
    · have hsp : c = ' ' := h c (by simp) hc
      rw [if_pos hc, ih hl, List.filter_cons]
      simp [hsp]
    · rw [if_neg hc]

theorem filter_TrimSpace (s : String) (h : ∀ c ∈ s.data, isSpace c = true → c = ' ') :
    ((TrimSpace s).data.filter fun c => !decide (c = ' ')) =
      s.data.filter fun c => !decide (c = ' ') := by
  show (((s.data.dropWhile isSpace).reverse.dropWhile isSpace).reverse.filter _) = _
  have h1 : ∀ c ∈ (s.data.dropWhile isSpace).reverse, isSpace c = true → c = ' ' := by
    intro c hc
    exact h c ((List.dropWhile_suffix isSpace).subset (List.mem_reverse.mp hc))
  rw [List.filter_reverse, filter_dropWhile_isSpace _ h1, List.filter_reverse,
    List.reverse_reverse]
  exact filter_dropWhile_isSpace s.data h

theorem swedishLower_idem (c : Char) (_h : 0x7F < c.toNat) :
    unicodeToLower swedishLower (swedishLower c) = swedishLower c := by
  unfold swedishLower
  split
  · decide
  · split
    · decide
    · split
      · decide
      · rename_i h1 h2 h3
        have hn : ¬ c.toNat ≤ 0x7F := by omega
        rw [unicodeToLower, if_neg hn]
        simp [swedishLower, h1, h2, h3]

theorem swedishLower_ne_space (c : Char) (h : 0x7F < c.toNat) : swedishLower c ≠ ' ' := by
  unfold swedishLower
  split
  · decide
  · split
    · decide
    · split
      · decide
      · intro e
        rw [e] at h
        exact absurd h (by decide)


/-! ## The bytes of a string -/

theorem isCont_iff (b : Nat) : isCont b = true ↔ 0x80 ≤ b ∧ b ≤ 0xBF := by
  simp [isCont]

theorem DecodeRune_EncodeRune (n : Nat) (rest : List Nat)
    (hv : n < 0xD800 ∨ (0xDFFF < n ∧ n < 0x110000)) :
    DecodeRune (EncodeRune n ++ rest) = (n, (EncodeRune n).length) := by
  by_cases h1 : n < 0x80
  · simp [EncodeRune, DecodeRune, h1]
  · by_cases h2 : n < 0x800
    · have e : EncodeRune n = [0xC0 + n / 64, 0x80 + n % 64] := by
        simp [EncodeRune, h1, h2]
      rw [e]
      simp only [DecodeRune, List.cons_append, List.nil_append, List.getD_cons_zero,
        List.length_cons, List.length_nil]
      rw [if_neg (by omega), if_pos ⟨by omega, by omega, (isCont_iff _).mpr ⟨by omega, by omega⟩⟩]
      congr 1
      omega
    · have h3 : ¬ (0x10FFFF < n ∨ (0xD800 ≤ n ∧ n ≤ 0xDFFF)) := by omega
      by_cases h4 : n < 0x10000
      · have e : EncodeRune n = [0xE0 + n / 4096, 0x80 + n / 64 % 64, 0x80 + n % 64] := by
          simp [EncodeRune, h1, h2, h3, h4]
        rw [e]
        simp only [DecodeRune, List.cons_append, List.nil_append, List.getD_cons_zero,
          List.getD_cons_succ, List.length_cons, List.length_nil]
        rw [if_neg (by omega), if_neg (by omega),
          if_pos ⟨by omega, by omega, by split <;> omega, by split <;> omega,
            (isCont_iff _).mpr ⟨by omega, by omega⟩⟩]
        congr 1
        omega
      · have e : EncodeRune n =
            [0xF0 + n / 262144, 0x80 + n / 4096 % 64, 0x80 + n / 64 % 64, 0x80 + n % 64] := by
          simp [EncodeRune, h1, h2, h3, h4]
        rw [e]
        simp only [DecodeRune, List.cons_append, List.nil_append, List.getD_cons_zero,
          List.getD_cons_succ, List.length_cons, List.length_nil]
        rw [if_neg (by omega), if_neg (by omega), if_neg (by omega),
          if_pos ⟨by omega, by omega, by split <;> omega, by split <;> omega,
            (isCont_iff _).mpr ⟨by omega, by omega⟩, (isCont_iff _).mpr ⟨by omega, by omega⟩⟩]
        congr 1
        omega

theorem Char_toNat_valid (c : Char) :
    c.toNat < 0xD800 ∨ (0xDFFF < c.toNat ∧ c.toNat < 0x110000) :=
  c.valid

theorem EncodeRune_ne_nil (n : Nat) : EncodeRune n ≠ [] := by
  unfold EncodeRune
  split
  · simp
  · split
    · simp
    · split
      · simp
      · split <;> simp

theorem mapRunes_skip (mapping : Nat → Nat) (l rest : List Nat) :
    mapRunes mapping l.length (l ++ rest) = mapRunes mapping 0 rest := by
  induction l with
  | nil => rfl
  | cons b l ih =>
    show mapRunes mapping (l.length + 1) (b :: (l ++ rest)) = _
    rw [mapRunes, ih]

theorem mapRunes_EncodeRune (mapping : Nat → Nat) (n : Nat) (rest : List Nat)
    (hv : n < 0xD800 ∨ (0xDFFF < n ∧ n < 0x110000)) :
    mapRunes mapping 0 (EncodeRune n ++ rest) =
      EncodeRune (mapping n) ++ mapRunes mapping 0 rest := by
  have hd := DecodeRune_EncodeRune n rest hv
  cases he : EncodeRune n with
  | nil => exact absurd he (EncodeRune_ne_nil n)
  | cons b tl =>
    rw [he] at hd
    show mapRunes mapping 0 (b :: (tl ++ rest)) = _
    rw [mapRunes]
    have hd2 : DecodeRune (b :: (tl ++ rest)) = (n, tl.length + 1) := hd
    rw [hd2]
    show EncodeRune (mapping n) ++ mapRunes mapping (tl.length + 1 - 1) (tl ++ rest) = _
    rw [Nat.add_sub_cancel, mapRunes_skip]

theorem mapRunes_flatMap (lowerTable : Char → Char) (l : List Char) :
    mapRunes (fun r => (unicodeToLower lowerTable (Char.ofNat r)).toNat) 0
        (l.flatMap fun c => EncodeRune c.toNat) =
      (l.map (unicodeToLower lowerTable)).flatMap fun c => EncodeRune c.toNat := by
  induction l with
  | nil => rfl
  | cons c l ih =>
    rw [List.flatMap_cons, mapRunes_EncodeRune _ _ _ (Char_toNat_valid c), ih]
    simp [List.flatMap_cons, Char.ofNat_toNat]

theorem EncodeRune_ascii (n : Nat) (h : n < 0x80) : EncodeRune n = [n] := by
  simp [EncodeRune, h]

theorem lt_of_EncodeRune_all (n : Nat)
    (h : (EncodeRune n).all (fun b => decide (b < 0x80)) = true) : n < 0x80 := by
  by_cases h1 : n < 0x80
  · exact h1
  · exfalso
    unfold EncodeRune at h
    rw [if_neg h1] at h
    split at h
    · simp at h
    · split at h
      · simp at h
      · split at h
        · simp at h
        · simp at h

theorem asciiLower_flatMap (lowerTable : Char → Char) (l : List Char)
    (h : (l.flatMap fun c => EncodeRune c.toNat).all (fun b => decide (b < 0x80)) = true) :
    ((l.flatMap fun c => EncodeRune c.toNat).map
        fun c => if 'A'.toNat ≤ c ∧ c ≤ 'Z'.toNat then c + 32 else c) =
      (l.map (unicodeToLower lowerTable)).flatMap fun c => EncodeRune c.toNat := by
  induction l with
  | nil => rfl
  | cons c l ih =>
    rw [List.flatMap_cons, List.all_append, Bool.and_eq_true] at h
    have hc : c.toNat < 0x80 := lt_of_EncodeRune_all _ h.1
    have hA : 'A'.toNat = 65 := rfl
    have hZ : 'Z'.toNat = 90 := rfl
    rw [List.flatMap_cons, List.map_append, ih h.2, List.map_cons, List.flatMap_cons,
      EncodeRune_ascii _ hc]
    congr 1
    by_cases hu : 'A'.toNat ≤ c.toNat ∧ c.toNat ≤ 'Z'.toNat
    · have hn := toNat_ofNat_add_32 c (by omega) (by omega)
      have e : unicodeToLower lowerTable c = Char.ofNat (c.toNat + 32) := by
        rw [unicodeToLower, if_pos (by omega), if_pos hu]
      rw [e, hn, EncodeRune_ascii _ (by omega)]
      simp only [List.map_cons, List.map_nil, if_pos hu]
    · have e : unicodeToLower lowerTable c = c := by
        rw [unicodeToLower, if_pos (by omega), if_neg hu]
      rw [e, EncodeRune_ascii _ hc]
      simp only [List.map_cons, List.map_nil, if_neg hu]

/-- On a string that is valid UTF-8 the lowering of its bytes is the lowering of
its runes: `ToLower` is `strings.ToLower` there. -/
theorem ToLowerBytes_utf8 (lowerTable : Char → Char) (s : String) :
    ToLowerBytes lowerTable (utf8 s) = utf8 (ToLower lowerTable s) := by
  unfold ToLowerBytes
  split
  · rename_i h
    exact asciiLower_flatMap lowerTable s.data h
  · exact mapRunes_flatMap lowerTable s.data

theorem EncodeRune_filter_space (n : Nat) (h : n ≠ 0x20) :
    ((EncodeRune n).filter fun b => !decide (b = 0x20)) = EncodeRune n := by
  rw [List.filter_eq_self]
  intro b hb
  unfold EncodeRune at hb
  split at hb
  · simp at hb
    simp [hb, h]
  · split at hb
    · simp at hb
      rcases hb with hb | hb <;> simp <;> omega
    · split at hb
      · simp at hb
        rcases hb with hb | hb | hb <;> simp [hb]
      · split at hb
        · simp at hb
          rcases hb with hb | hb | hb <;> simp <;> omega
        · simp at hb
          rcases hb with hb | hb | hb | hb <;> simp <;> omega

theorem utf8_filter_space (l : List Char) :
    ((l.flatMap fun c => EncodeRune c.toNat).filter fun b => !decide (b = 0x20)) =
      (l.filter fun c => !decide (c = ' ')).flatMap fun c => EncodeRune c.toNat := by
  induction l with
  | nil => rfl
  | cons c l ih =>
    rw [List.flatMap_cons, List.filter_append, ih]
    by_cases hc : c = ' '
    · subst hc
      simp [List.filter_cons]
      decide
    · have hn : c.toNat ≠ 0x20 := fun e => hc ((toNat_eq_32_iff c).mp e)
      rw [EncodeRune_filter_space _ hn, List.filter_cons]
      simp [hc, List.flatMap_cons]

/-- On a string that is valid UTF-8 the key computed from its bytes is the key
`clean` computes from its runes. -/
theorem cleanBytes_utf8 (lowerTable : Char → Char) (s : String) :
    cleanBytes lowerTable (utf8 s) = utf8 (clean lowerTable s) := by
  have h : ((utf8 s).filter fun b => !decide (b = 0x20)) = utf8 (ReplaceAll s ' ' "") := by
    show _ = ((ReplaceAll s ' ' "").data.flatMap fun c => EncodeRune c.toNat)
    rw [ReplaceAll_space_data]
    exact utf8_filter_space s.data
  rw [cleanBytes, h, ToLowerBytes_utf8]
  rfl

/-- For the bytes `C3 20 B6`, which are not valid UTF-8, lowering first changes
the key: `lookup` on the bytes themselves removes the space and reads `ö`, while
after `strings.ToLower` both stray bytes are U+FFFD and the key is U+FFFD U+FFFD. -/
theorem cleanBytes_stray_bytes :
    cleanBytes swedishLower [0xC3, 0x20, 0xB6] = utf8 "ö" ∧
    ToLowerBytes swedishLower [0xC3, 0x20, 0xB6] = utf8 "\uFFFD \uFFFD" ∧
    cleanBytes swedishLower (ToLowerBytes swedishLower [0xC3, 0x20, 0xB6]) =
      utf8 "\uFFFD\uFFFD" := by
  decide

/-- On the bytes of a query that is valid UTF-8, lowering first does not change
the key, for a case table that is idempotent and yields no space. -/
theorem cleanBytes_ToLowerBytes_utf8 (lowerTable : Char → Char)
    (hidem : ∀ c, 0x7F < c.toNat → unicodeToLower lowerTable (lowerTable c) = lowerTable c)
    (hnosp : ∀ c, 0x7F < c.toNat → lowerTable c ≠ ' ') (q : String) :
    cleanBytes lowerTable (ToLowerBytes lowerTable (utf8 q)) =
      cleanBytes lowerTable (utf8 q) := by
  rw [ToLowerBytes_utf8, cleanBytes_utf8, cleanBytes_utf8,
    clean_ToLower lowerTable hidem hnosp q]

/-! ## Claims, continued -/

/-- C11: the word `gameRandom` responds with is not always a key of the table:
for the table of the lists `["%d"]` and `[]` the only key is `%d`, every draw
takes it, and the body written is `%!d(MISSING)`, which is no key. -/
theorem C11_gameRandom_percent_key (r : Nat) :
    mapKeys (NewTable ["%d"] []).data = ["%d"] ∧
    drawWord (mapKeys (NewTable ["%d"] []).data) r = Outcome.ok "%d" ∧
    gameRandom (mapKeys (NewTable ["%d"] []).data) r = Outcome.ok "%!d(MISSING)" ∧
    ((NewTable ["%d"] []).Read "%!d(MISSING)").2 = false := by
  have hk : mapKeys (NewTable ["%d"] []).data = ["%d"] := by decide
  have hd : drawWord ["%d"] r = Outcome.ok "%d" := by
    simp [drawWord, Intn, Nat.mod_one]
  refine ⟨hk, ?_, ?_, by decide⟩
  · rw [hk, hd]
  · rw [hk]
    simp only [gameRandom, hd]
    decide

/-- C12: every entry of every reachable table has a classification: the table
`NewTable` builds satisfies `en || ett` in every entry, `IncrementHits` and
`lookup` with its increment keep the property, `Read` leaves the map as it
is, and so every table the process can be in has it, for every entry `Read`
finds. -/
theorem C12_classified (lowerTable : Char → Char) (t : Table)
    (hr : Reachable lowerTable t) :
    t.classified = true ∧
    (∀ k, (t.Read k).2 = true → ((t.Read k).1.en || (t.Read k).1.ett) = true) ∧
    (∀ en ett, (NewTable en ett).classified = true) ∧
    (∀ (t1 : Table) k, t1.classified = true → (t1.IncrementHits k).2.classified = true) ∧
    (∀ (t1 : Table) q, t1.classified = true →
      (lookupSettled lowerTable t1 q).2.2.classified = true) ∧
    (∀ (w : World) k, (w.Read k).2.data = w.data) := by
  have hc := Reachable_classified lowerTable t hr
  refine ⟨hc, ?_, NewTable_classified, IncrementHits_classified,
    lookupSettled_classified lowerTable, World_Read_data⟩
  intro k hk
  exact classified_entry t k _ hc (mapGet_of_Read_true t k hk)

theorem C12_classified_witness :
    (lookupSettled swedishLower (NewTable ["stol", "öl"] ["öl", "bord", "bord"])
      " Stol").2.2.classified = true ∧
    (∀ k, ((lookupSettled swedishLower (NewTable ["stol", "öl"] ["öl", "bord", "bord"])
        " Stol").2.2.Read k).2 = true →
      (((lookupSettled swedishLower (NewTable ["stol", "öl"] ["öl", "bord", "bord"])
          " Stol").2.2.Read k).1.en ||
        ((lookupSettled swedishLower (NewTable ["stol", "öl"] ["öl", "bord", "bord"])
          " Stol").2.2.Read k).1.ett) = true) ∧
    (∀ en ett, (NewTable en ett).classified = true) ∧
    (∀ (t1 : Table) k, t1.classified = true → (t1.IncrementHits k).2.classified = true) ∧
    (∀ (t1 : Table) q, t1.classified = true →
      (lookupSettled swedishLower t1 q).2.2.classified = true) ∧
    (∀ (w : World) k, (w.Read k).2.data = w.data) :=
  C12_classified swedishLower
    (lookupSettled swedishLower (NewTable ["stol", "öl"] ["öl", "bord", "bord"]) " Stol").2.2
    (Reachable.lookup _ _ (Reachable.start _ _))

/-- C13, as stated, fails at the top of `uint64`: after `2 ^ 64 - 1` settled
lookups of `stol` in the table of the lists `["stol"]` and `[]` the `hits` of
`stol` is `2 ^ 64 - 1`, and `IncrementHits("stol")` lowers it to `0`. -/
theorem C13_hits_drop_at_top :
    ((lookupTimes swedishLower (NewTable ["stol"] []) "stol" (2 ^ 64 - 1)).Read "stol").2 = true ∧
    ((lookupTimes swedishLower (NewTable ["stol"] []) "stol" (2 ^ 64 - 1)).Read "stol").1.hits =
      2 ^ 64 - 1 ∧
    ((((lookupTimes swedishLower (NewTable ["stol"] []) "stol" (2 ^ 64 - 1)).IncrementHits
      "stol").2.Read "stol").1.hits = 0) ∧
    ¬ (((lookupTimes swedishLower (NewTable ["stol"] []) "stol" (2 ^ 64 - 1)).Read "stol").1.hits ≤
      (((lookupTimes swedishLower (NewTable ["stol"] []) "stol" (2 ^ 64 - 1)).IncrementHits
        "stol").2.Read "stol").1.hits) := by
  have hc : clean swedishLower "stol" = "stol" := by decide
  have hget : mapGet (NewTable ["stol"] []).data (clean swedishLower "stol") =
      some (enInfo "stol") := by decide
  have h := lookupTimes_entry swedishLower (NewTable ["stol"] []) "stol" (enInfo "stol")
    (by rw [hc]; decide) hget (by decide) (2 ^ 64 - 1)
  rw [hc] at h
  have hn : ((enInfo "stol").hits + (2 ^ 64 - 1)) % uint64Size = 2 ^ 64 - 1 := by decide
  rw [hn] at h
  have h2 := mapGet_IncrementHits_self _ _ _ h
  have hm : (2 ^ 64 - 1 + 1) % uint64Size = 0 := by decide
  rw [Read_of_mapGet_some _ _ _ h, Read_of_mapGet_some _ _ _ h2]
  refine ⟨rfl, rfl, hm, ?_⟩
  show ¬ (2 ^ 64 - 1 ≤ (2 ^ 64 - 1 + 1) % uint64Size)
  rw [hm]
  decide

/-- C13, amended: every entry of a freshly built table has `hits = 0`; for a
key `k` of a table whose `hits` is below `2 ^ 64 - 1`, `IncrementHits(k)`
raises the `hits` of `k` by one, so it is not lower than before; in general
the new value is the old one plus one modulo `2 ^ 64`, which is `0` at the top;
`IncrementHits(k)` leaves the `hits` of every other key, and `Read` and a
lookup that misses leave the whole table. -/
theorem C13_hits_monotone_below_top (lowerTable : Char → Char) (t : Table) (k : String)
    (hkey : (t.Read k).2 = true) (hlt : (t.Read k).1.hits + 1 < uint64Size) :
    (∀ en ett w, ((NewTable en ett).Read w).2 = true → ((NewTable en ett).Read w).1.hits = 0) ∧
    (t.Read k).1.hits ≤ ((t.IncrementHits k).2.Read k).1.hits ∧
    ((t.IncrementHits k).2.Read k).1.hits = (t.Read k).1.hits + 1 ∧
    (∀ (t1 : Table) k1, (t1.Read k1).2 = true →
      ((t1.IncrementHits k1).2.Read k1).1.hits = ((t1.Read k1).1.hits + 1) % uint64Size) ∧
    (∀ k', k' ≠ k → (t.IncrementHits k).2.Read k' = t.Read k') ∧
    (∀ (w : World) k', (w.Read k').2.data = w.data) ∧
    (∀ q, (lookup lowerTable t q).2 = none → (lookupSettled lowerTable t q).2.2 = t) := by
  have hmod : ∀ (t1 : Table) k1, (t1.Read k1).2 = true →
      ((t1.IncrementHits k1).2.Read k1).1.hits = ((t1.Read k1).1.hits + 1) % uint64Size := by
    intro t1 k1 h1
    rw [Read_of_mapGet_some _ _ _
      (mapGet_IncrementHits_self t1 k1 _ (mapGet_of_Read_true t1 k1 h1))]
  have hup : ((t.IncrementHits k).2.Read k).1.hits = (t.Read k).1.hits + 1 := by
    rw [hmod t k hkey, Nat.mod_eq_of_lt hlt]
  refine ⟨?_, ?_, hup, hmod, ?_, World_Read_data, ?_⟩
  · intro en ett w hw
    exact NewTable_hits_zero en ett w _ (mapGet_of_Read_true _ w hw)
  · rw [hup]
    exact Nat.le_succ _
  · intro k' hne
    simp only [Table.Read]
    rw [mapGet_IncrementHits_ne t k k' hne]
  · intro q hq
    cases hl : lookup lowerTable t q with
    | mk msg task =>
      rw [hl] at hq
      simp only at hq
      subst hq
      simp [lookupSettled, hl]

theorem C13_hits_monotone_below_top_witness :
    (∀ en ett w, ((NewTable en ett).Read w).2 = true → ((NewTable en ett).Read w).1.hits = 0) ∧
    ((NewTable ["stol"] ["bord"]).Read "bord").1.hits ≤
      (((NewTable ["stol"] ["bord"]).IncrementHits "bord").2.Read "bord").1.hits ∧
    (((NewTable ["stol"] ["bord"]).IncrementHits "bord").2.Read "bord").1.hits =
      ((NewTable ["stol"] ["bord"]).Read "bord").1.hits + 1 ∧
    (∀ (t1 : Table) k1, (t1.Read k1).2 = true →
      ((t1.IncrementHits k1).2.Read k1).1.hits = ((t1.Read k1).1.hits + 1) % uint64Size) ∧
    (∀ k', k' ≠ "bord" →
      ((NewTable ["stol"] ["bord"]).IncrementHits "bord").2.Read k' =
        (NewTable ["stol"] ["bord"]).Read k') ∧
    (∀ (w : World) k', (w.Read k').2.data = w.data) ∧
    (∀ q, (lookup swedishLower (NewTable ["stol"] ["bord"]) q).2 = none →
      (lookupSettled swedishLower (NewTable ["stol"] ["bord"]) q).2.2 =
        NewTable ["stol"] ["bord"]) :=
  C13_hits_monotone_below_top swedishLower (NewTable ["stol"] ["bord"]) "bord"
    (by decide) (by decide)

/-- C14, as stated, fails at the top of `uint64`: in a table where `stol` has
`hits = 2 ^ 64 - 1`, after the increments of `bord` and `stol` the `hits` of
`stol` is `0`, not its initial value plus the one increment of `stol`. -/
theorem C14_hits_sum_wraps :
    ((Table.mk [("stol", { ett := false, en := true, msg := "En stol\n", hits := 2 ^ 64 - 1 }),
        ("bord", { ett := true, en := false, msg := "Ett bord\n", hits := 0 })]).Read
      "stol").1.hits + ["bord", "stol"].count "stol" = 2 ^ 64 ∧
    (incrementAll
      (Table.mk [("stol", { ett := false, en := true, msg := "En stol\n", hits := 2 ^ 64 - 1 }),
        ("bord", { ett := true, en := false, msg := "Ett bord\n", hits := 0 })])
      ["bord", "stol"]).1 = Outcome.ok () ∧
    ((incrementAll
      (Table.mk [("stol", { ett := false, en := true, msg := "En stol\n", hits := 2 ^ 64 - 1 }),
        ("bord", { ett := true, en := false, msg := "Ett bord\n", hits := 0 })])
      ["bord", "stol"]).2.Read "stol").1.hits = 0 := by
  decide

/-- C14, amended: for a key `a` of a table and every `b` (so for two distinct
keys), `IncrementHits(a)` then `IncrementHits(b)` leaves the same table as the
other order; a sequence of increments of keys of the table runs without a panic and
leaves `a` with its initial `hits` plus the number of increments of `a` modulo
`2 ^ 64` (the plain sum whenever that is below `2 ^ 64`); and every reordering
of the sequence leaves the same table. -/
theorem C14_increments_commute (t : Table) (a b : String) (ha : (t.Read a).2 = true) :
    ((t.IncrementHits a).2.IncrementHits b).2 = ((t.IncrementHits b).2.IncrementHits a).2 ∧
    (∀ keys : List String, (∀ k ∈ keys, (t.Read k).2 = true) →
      (incrementAll t keys).1 = Outcome.ok () ∧
      (0 < keys.count a → ((incrementAll t keys).2.Read a).1.hits =
        ((t.Read a).1.hits + keys.count a) % uint64Size) ∧
      ((t.Read a).1.hits + keys.count a < uint64Size →
        ((incrementAll t keys).2.Read a).1.hits = (t.Read a).1.hits + keys.count a)) ∧
    (∀ keys keys' : List String, keys.Perm keys' → (∀ k ∈ keys, (t.Read k).2 = true) →
      incrementAll t keys = incrementAll t keys') := by
  refine ⟨IncrementHits_comm t a b, ?_, ?_⟩
  · intro keys hk
    have he := incrementAll_eq_foldl t keys hk
    have hg := foldl_IncrementHits_entry t keys a _ (mapGet_of_Read_true t a ha)
    rw [he]
    refine ⟨rfl, ?_, ?_⟩
    · intro hpos
      rw [Read_of_mapGet_some _ _ _ hg]
      exact iterate_succ_mod_pos _ _ hpos
    · intro hlt
      rw [Read_of_mapGet_some _ _ _ hg]
      exact iterate_succ_mod_lt _ _ hlt
  · intro keys keys' hp hk
    have hk' : ∀ k ∈ keys', (t.Read k).2 = true := fun k hm => hk k (hp.mem_iff.mpr hm)
    rw [incrementAll_eq_foldl t keys hk, incrementAll_eq_foldl t keys' hk']
    congr 1
    exact hp.foldl_eq' (fun x _ y _ z => IncrementHits_comm z x y) t

theorem C14_increments_commute_witness :
    (((NewTable ["stol"] ["bord"]).IncrementHits "stol").2.IncrementHits "bord").2 =
      (((NewTable ["stol"] ["bord"]).IncrementHits "bord").2.IncrementHits "stol").2 ∧
    (∀ keys : List String, (∀ k ∈ keys, ((NewTable ["stol"] ["bord"]).Read k).2 = true) →
      (incrementAll (NewTable ["stol"] ["bord"]) keys).1 = Outcome.ok () ∧
      (0 < keys.count "stol" →
        ((incrementAll (NewTable ["stol"] ["bord"]) keys).2.Read "stol").1.hits =
          (((NewTable ["stol"] ["bord"]).Read "stol").1.hits + keys.count "stol") %
            uint64Size) ∧
      (((NewTable ["stol"] ["bord"]).Read "stol").1.hits + keys.count "stol" < uint64Size →
        ((incrementAll (NewTable ["stol"] ["bord"]) keys).2.Read "stol").1.hits =
          ((NewTable ["stol"] ["bord"]).Read "stol").1.hits + keys.count "stol")) ∧
    (∀ keys keys' : List String, keys.Perm keys' →
      (∀ k ∈ keys, ((NewTable ["stol"] ["bord"]).Read k).2 = true) →
      incrementAll (NewTable ["stol"] ["bord"]) keys =
        incrementAll (NewTable ["stol"] ["bord"]) keys') :=
  C14_increments_commute (NewTable ["stol"] ["bord"]) "stol" "bord" (by decide)

/-- C15: `Read` and `IncrementHits` make their accesses to the map with the
mutex held and release it, but `gameRandom` ranges over `table.data` with no
call of `Lock`: from a world with the mutex free its one access is made
without the mutex. -/
theorem C15_gameRandom_without_lock (t : Table) (words : List String) (r : Nat)
    (key : String) :
    ((World.start t).Read key).2.accesses = [Access.read key true] ∧
    ((World.start t).Read key).2.held = false ∧
    ((World.start t).IncrementHits key).2.disciplined = true ∧
    ((World.start t).IncrementHits key).2.held = false ∧
    (∀ w : World, w.disciplined = true →
      (w.Read key).2.disciplined = true ∧ (w.IncrementHits key).2.disciplined = true) ∧
    ((World.start t).gameRandom words r).2.accesses = [Access.range false] ∧
    ((World.start t).gameRandom words r).2.disciplined = false ∧
    (∀ w : World, w.held = false → (w.gameRandom words r).2.disciplined = false) := by
  refine ⟨?_, ?_, ?_, ?_, ?_, rfl, rfl, ?_⟩
  · rw [World_Read_eq]
    rfl
  · rw [World_Read_eq]
  · exact World_IncrementHits_disciplined _ _ rfl
  · rw [World_IncrementHits_eq]
  · intro w hw
    exact ⟨World_Read_disciplined w key hw, World_IncrementHits_disciplined w key hw⟩
  · intro w hw
    simp [World.gameRandom, World.mapRange, World.disciplined, hw, Access.held]

/-- C16, as stated, fails for a tab: `st\tol` arises from `stol` by inserting a
whitespace character, but `lookup` reads the key `st\tol` for it, not `stol`,
and misses in the table of the lists `["stol"]` and `[]`. -/
theorem C16_tab_is_kept :
    insertedFrom isSpace "stol".data "st\tol".data = true ∧
    clean swedishLower "stol" = "stol" ∧
    clean swedishLower "st\tol" = "st\tol" ∧
    lookup swedishLower (NewTable ["stol"] []) "stol" = ("En stol\n", some "stol") ∧
    lookup swedishLower (NewTable ["stol"] []) "st\tol" =
      ("Kunde inte hitta substantivet 'st\tol'\n", none) := by
  decide

/-- C16, amended: the key `lookup` reads is the raw query with every space
character (U+0020) removed, wherever it occurs, and then lowercased; for a
query `q'` obtained from `q` by inserting space characters, `lookup` reads the
same key, starts the same increment, and on a hit returns the same message. -/
theorem C16_spaces_removed (lowerTable : Char → Char) (t : Table) (q q' : String)
    (h : insertedFrom (fun c => decide (c = ' ')) q.data q'.data = true) :
    clean lowerTable q =
      ToLower lowerTable (String.mk (q.data.filter fun c => !decide (c = ' '))) ∧
    clean lowerTable q' = clean lowerTable q ∧
    (lookup lowerTable t q').2 = (lookup lowerTable t q).2 ∧
    ((t.Read (clean lowerTable q)).2 = true →
      (lookup lowerTable t q').1 = (lookup lowerTable t q).1) := by
  have hc := clean_eq_of_filter_eq lowerTable q q' (insertedFrom_space_filter _ _ h)
  refine ⟨?_, hc, lookup_snd_of_clean_eq lowerTable t q q' hc,
    lookup_fst_of_clean_eq lowerTable t q q' hc⟩
  rw [clean]
  congr 1
  apply String.ext
  exact ReplaceAll_space_data q

theorem C16_spaces_removed_witness :
    clean swedishLower "Stol" =
      ToLower swedishLower (String.mk ("Stol".data.filter fun c => !decide (c = ' '))) ∧
    clean swedishLower " S to l " = clean swedishLower "Stol" ∧
    (lookup swedishLower (NewTable ["stol"] ["bord"]) " S to l ").2 =
      (lookup swedishLower (NewTable ["stol"] ["bord"]) "Stol").2 ∧
    (((NewTable ["stol"] ["bord"]).Read (clean swedishLower "Stol")).2 = true →
      (lookup swedishLower (NewTable ["stol"] ["bord"]) " S to l ").1 =
        (lookup swedishLower (NewTable ["stol"] ["bord"]) "Stol").1) :=
  C16_spaces_removed swedishLower (NewTable ["stol"] ["bord"]) "Stol" " S to l " (by decide)

/-- C17: for a noun that is no key of the table, `isCorrect` and `gameCheck`
panic for either guess instead of returning a score, and the map of the table
is as it was. -/
theorem C17_quiz_absent_noun (t : Table) (guessEn : Bool) (noun : String)
    (hkey : (t.Read noun).2 = false) :
    isCorrect t guessEn noun =
      Outcome.panic "somehow noun from game did not exist in table" ∧
    gameCheck t guessEn noun =
      Outcome.panic "somehow noun from game did not exist in table" ∧
    ((World.start t).isCorrect guessEn noun).1 =
      Outcome.panic "somehow noun from game did not exist in table" ∧
    ((World.start t).isCorrect guessEn noun).2.data = t.data ∧
    ((World.start t).gameCheck guessEn noun).1 =
      Outcome.panic "somehow noun from game did not exist in table" ∧
    ((World.start t).gameCheck guessEn noun).2.data = t.data := by
  have hr := Read_of_mapGet_none t noun (mapGet_of_Read_false t noun hkey)
  have h1 : isCorrect t guessEn noun =
      Outcome.panic "somehow noun from game did not exist in table" := by
    simp [isCorrect, hr]
  have h2 : gameCheck t guessEn noun =
      Outcome.panic "somehow noun from game did not exist in table" := by
    simp [gameCheck, h1]
  refine ⟨h1, h2, ?_, ?_, ?_, ?_⟩
  · rw [World_isCorrect_eq]
    exact h1
  · rw [World_isCorrect_eq, World_Read_eq]
    rfl
  · rw [World_gameCheck_eq]
    exact h2
  · rw [World_gameCheck_eq, World_Read_eq]
    rfl

theorem C17_quiz_absent_noun_witness :
    isCorrect (NewTable ["stol"] ["bord"]) false "okänd" =
      Outcome.panic "somehow noun from game did not exist in table" ∧
    gameCheck (NewTable ["stol"] ["bord"]) false "okänd" =
      Outcome.panic "somehow noun from game did not exist in table" ∧
    ((World.start (NewTable ["stol"] ["bord"])).isCorrect false "okänd").1 =
      Outcome.panic "somehow noun from game did not exist in table" ∧
    ((World.start (NewTable ["stol"] ["bord"])).isCorrect false "okänd").2.data =
      (NewTable ["stol"] ["bord"]).data ∧
    ((World.start (NewTable ["stol"] ["bord"])).gameCheck false "okänd").1 =
      Outcome.panic "somehow noun from game did not exist in table" ∧
    ((World.start (NewTable ["stol"] ["bord"])).gameCheck false "okänd").2.data =
      (NewTable ["stol"] ["bord"]).data :=
  C17_quiz_absent_noun (NewTable ["stol"] ["bord"]) false "okänd" (by decide)

/-- C18: the body `handleCurl` writes is not always the message `lookup`
returns: for the path `/%d` the message is
`Kunde inte hitta substantivet '%d'` and the body, the message passed to
`fmt.Fprintf` as its format, is `Kunde inte hitta substantivet '%!d(MISSING)'`,
which does not contain the query text `%d`. -/
theorem C18_handleCurl_percent_path :
    TrimSpace (ToLower swedishLower (TrimPrefix "/%d" "/")) = "%d" ∧
    ((NewTable ["stol"] ["bord"]).Read "%d").2 = false ∧
    lookup swedishLower (NewTable ["stol"] ["bord"]) "%d" =
      ("Kunde inte hitta substantivet '%d'\n", none) ∧
    handleCurl swedishLower (NewTable ["stol"] ["bord"]) "enellerett.se" "/%d" =
      ("Kunde inte hitta substantivet '%!d(MISSING)'\n", none) ∧
    ¬ Contains (handleCurl swedishLower (NewTable ["stol"] ["bord"]) "enellerett.se" "/%d").1
      "%d" := by
  decide

/-- C19: `Read(w)` finds `w` in the table `NewTable` builds exactly when `w` is
a line of the en list or of the ett list, and for every reordering of the lines
within each list the table holds the same entry for every word and the same
keys. -/
theorem C19_NewTable_keys (en ett en' ett' : List String) (w : String)
    (hen : en.Perm en') (hett : ett.Perm ett') :
    (((NewTable en ett).Read w).2 = true ↔ (w ∈ en ∨ w ∈ ett)) ∧
    (NewTable en ett).Read w = (NewTable en' ett').Read w ∧
    (mapKeys (NewTable en ett).data).Perm (mapKeys (NewTable en' ett').data) := by
  have hr : ∀ x, (NewTable en ett).Read x = (NewTable en' ett').Read x := by
    intro x
    simp only [Table.Read]
    rw [mapGet_NewTable_perm en ett en' ett' x hen hett]
  refine ⟨Read_NewTable_iff en ett w, hr w, ?_⟩
  have hnd : ∀ m : List (String × Info), (mapKeys m).Nodup := fun m => List.nodup_dedup _
  refine (List.perm_ext_iff_of_nodup (hnd _) (hnd _)).mpr ?_
  intro k
  rw [mem_mapKeys_iff, mem_mapKeys_iff, hr k]

theorem C19_NewTable_keys_witness :
    (((NewTable ["stol", "öl", "bok"] ["bord", "öl", "bord"]).Read "öl").2 = true ↔
      ("öl" ∈ ["stol", "öl", "bok"] ∨ "öl" ∈ ["bord", "öl", "bord"])) ∧
    (NewTable ["stol", "öl", "bok"] ["bord", "öl", "bord"]).Read "öl" =
      (NewTable ["bok", "stol", "öl"] ["bord", "bord", "öl"]).Read "öl" ∧
    (mapKeys (NewTable ["stol", "öl", "bok"] ["bord", "öl", "bord"]).data).Perm
      (mapKeys (NewTable ["bok", "stol", "öl"] ["bord", "bord", "öl"]).data) :=
  C19_NewTable_keys ["stol", "öl", "bok"] ["bord", "öl", "bord"] ["bok", "stol", "öl"]
    ["bord", "bord", "öl"] "öl" (by decide) (by decide)

/-- C20, as stated, fails for a tab at the end: `handleCurl` trims `stol\t` to
`stol` and `lookup` then reads the key `stol`, a hit, while for the query
`stol\t` itself `lookup` reads the key `stol\t`, a miss. It fails for the
lowercasing too, on the bytes `C3 20 B6`, which are not valid UTF-8: `lookup`
on them removes the space and reads `ö`, while `strings.ToLower` writes U+FFFD
for either stray byte (there is nothing to trim then) and `lookup` reads
U+FFFD U+FFFD. -/
theorem C20_handleCurl_changes_key :
    clean swedishLower (TrimSpace (ToLower swedishLower "stol\t")) = "stol" ∧
    clean swedishLower "stol\t" = "stol\t" ∧
    handleCurl swedishLower (NewTable ["stol"] []) "enellerett.se" "/stol\t" =
      ("En stol\n", some "stol") ∧
    lookup swedishLower (NewTable ["stol"] []) "stol\t" =
      ("Kunde inte hitta substantivet 'stol\t'\n", none) ∧
    cleanBytes swedishLower [0xC3, 0x20, 0xB6] = utf8 "ö" ∧
    ToLowerBytes swedishLower [0xC3, 0x20, 0xB6] = utf8 "\uFFFD \uFFFD" ∧
    TrimSpace "\uFFFD \uFFFD" = "\uFFFD \uFFFD" ∧
    cleanBytes swedishLower (ToLowerBytes swedishLower [0xC3, 0x20, 0xB6]) =
      utf8 "\uFFFD\uFFFD" := by
  decide

/-- C20, amended: for every raw query `q` that is valid UTF-8 (a `String`), and
for a case table of `unicode.ToLower` with `hidem` (lowering the lowered form
of a rune above ASCII gives it again) and `hnosp` (no rune above ASCII lowers
to a space): normalising the normalised form of `q` gives it again; the
lowercasing of `handleCurl` never changes the key `lookup` reads, and neither
does its trimming when the whitespace characters of the lowered text are all
spaces (U+0020); `lookup` of the normalised `q` starts the same increment as
`lookup` of `q` and on a hit returns the same message. Nothing is said of a
query that holds bytes that are not valid UTF-8. -/
theorem C20_clean_idempotent (lowerTable : Char → Char) (t : Table) (q : String)
    (hidem : ∀ c, 0x7F < c.toNat → unicodeToLower lowerTable (lowerTable c) = lowerTable c)
    (hnosp : ∀ c, 0x7F < c.toNat → lowerTable c ≠ ' ') :
    clean lowerTable (clean lowerTable q) = clean lowerTable q ∧
    clean lowerTable (ToLower lowerTable q) = clean lowerTable q ∧
    ((∀ c ∈ (ToLower lowerTable q).data, isSpace c = true → c = ' ') →
      clean lowerTable (TrimSpace (ToLower lowerTable q)) = clean lowerTable q) ∧
    (lookup lowerTable t (clean lowerTable q)).2 = (lookup lowerTable t q).2 ∧
    ((t.Read (clean lowerTable q)).2 = true →
      (lookup lowerTable t (clean lowerTable q)).1 = (lookup lowerTable t q).1) := by
  have hcc := clean_clean lowerTable hidem hnosp q
  have hcl := clean_ToLower lowerTable hidem hnosp q
  refine ⟨hcc, hcl, ?_, lookup_snd_of_clean_eq lowerTable t q _ hcc,
    lookup_fst_of_clean_eq lowerTable t q _ hcc⟩
  intro hsp
  rw [← hcl]
  exact clean_eq_of_filter_eq lowerTable _ _ (filter_TrimSpace _ hsp)

theorem C20_clean_idempotent_witness :
    clean swedishLower (clean swedishLower " Ö l ") = clean swedishLower " Ö l " ∧
    clean swedishLower (ToLower swedishLower " Ö l ") = clean swedishLower " Ö l " ∧
    ((∀ c ∈ (ToLower swedishLower " Ö l ").data, isSpace c = true → c = ' ') →
      clean swedishLower (TrimSpace (ToLower swedishLower " Ö l ")) =
        clean swedishLower " Ö l ") ∧
    (lookup swedishLower (NewTable ["öl"] ["öl"]) (clean swedishLower " Ö l ")).2 =
      (lookup swedishLower (NewTable ["öl"] ["öl"]) " Ö l ").2 ∧
    (((NewTable ["öl"] ["öl"]).Read (clean swedishLower " Ö l ")).2 = true →
      (lookup swedishLower (NewTable ["öl"] ["öl"]) (clean swedishLower " Ö l ")).1 =
        (lookup swedishLower (NewTable ["öl"] ["öl"]) " Ö l ").1) :=
  C20_clean_idempotent swedishLower (NewTable ["öl"] ["öl"]) " Ö l "
    swedishLower_idem swedishLower_ne_space

end Enellerett
